import Mathlib

/-!
Shallow embedding of the patch-indexing, balanced-sampling, dataset-adapter and
curriculum-sampler code of `datasets.py` (marianocabezas/pytorch-code).

Conventions of the embedding:
* numpy integer arrays become `List Int` / `List Nat`; coordinates of an
  n-dimensional array become `List Nat` of length n, enumerated in C order
  (the order `np.where` and the voxel-extraction utility use);
* an n-dimensional mask/volume becomes `NDArr`: a shape together with a total
  value function on coordinates (0 encodes background / logical False);
* a python `slice(a, b)` becomes `NSlice`;
* code that can raise returns `Except String`, the message standing for the
  python (numpy/torch) exception;
* random draws (`np.random.permutation`, `torch.multinomial`, `torch.randperm`)
  are parametrised by oracles; any outcome the library can produce corresponds
  to some oracle value.
-/

set_option maxHeartbeats 1600000
set_option maxRecDepth 40000

/-- Python `slice(start, stop)` with unit step. -/
structure NSlice where
  start : Int
  stop : Int
  deriving Repr, DecidableEq

/-- An n-dimensional numpy array of nonnegative scalars: its shape and the
value at each coordinate (coordinates are length-`shape.length` lists; the
value function is total, values outside the shape are irrelevant).  `0` plays
the role of logical `False` / background. -/
structure NDArr where
  shape : List Nat
  val : List Nat → Nat

instance : Inhabited NDArr := ⟨⟨[], fun _ => 0⟩⟩

instance : Inhabited NSlice := ⟨⟨0, 0⟩⟩

/-- All coordinates of an array of the given shape, in C (row-major) order:
the order numpy's `np.where` enumerates true positions in. -/
def allCoords : List Nat → List (List Nat)
  | [] => [[]]
  | n :: rest => (List.range n).flatMap (fun i => (allCoords rest).map (i :: ·))

/-- Coordinates of the nonzero (foreground) voxels of a mask: the embedding of
`np.where(mask > 0)`, read as the list of coordinate tuples. -/
def fgVoxels (m : NDArr) : List (List Nat) :=
  (allCoords m.shape).filter (fun c => decide (0 < m.val c))

/-- Modelled from the spec: the external utility
`data_manipulation.generate_features.get_mask_voxels` is not part of `src/`;
per the spec's external-interface section it is "a mask-to-voxel-coordinate
extraction utility: given a boolean array, returns the list of integer
coordinate tuples where it is true". -/
def get_mask_voxels (m : NDArr) : List (List Nat) :=
  (allCoords m.shape).filter (fun c => decide (0 < m.val c))

/-- Per-dimension minimum of a list of coordinates: the embedding of
`np.min(np.where(mask > 0), axis=-1)`.  numpy raises `ValueError`
("zero-size array to reduction operation") on an empty coordinate set. -/
def npMinAx (coords : List (List Nat)) : Except String (List Nat) :=
  match coords with
  | [] => .error "zero-size array to reduction operation minimum which has no identity"
  | c :: cs => .ok (cs.foldl (fun acc c2 => acc.zipWith min c2) c)

/-- Per-dimension maximum of a list of coordinates (`np.max(..., axis=-1)`). -/
def npMaxAx (coords : List (List Nat)) : Except String (List Nat) :=
  match coords with
  | [] => .error "zero-size array to reduction operation maximum which has no identity"
  | c :: cs => .ok (cs.foldl (fun acc c2 => acc.zipWith max c2) c)

/-- `np.arange(lo, hi, step)` for a positive integer step. -/
def npArange (lo hi : Int) (step : Nat) : List Int :=
  (List.range (((hi - lo).toNat + (step - 1)) / step)).map
    (fun k : Nat => lo + (step : Int) * (k : Int))

/-- `patch_half = map(lambda p_length: p_length // 2, patch_size)`. -/
def patchHalf (patch_size : List Nat) : List Nat :=
  patch_size.map (fun p => p / 2)

/-- `steps = map(lambda p_length: max(p_length - overlap, 1), patch_size)`
(python's `max(p - overlap, 1)` and Nat truncated subtraction followed by
`max · 1` agree). -/
def bbSteps (patch_size : List Nat) (overlap : Nat) : List Nat :=
  patch_size.map (fun p => max (p - overlap) 1)

/-- `centers_to_slice` (datasets.py:136-146): each center voxel becomes the
tuple of `slice(idx - p_len, idx + p_len)` over `zip(voxel, patch_half)`. -/
def centers_to_slice (voxels : List (List Int)) (patch_half : List Nat) : List (List NSlice) :=
  voxels.map (fun voxel =>
    (voxel.zip patch_half).map (fun p => NSlice.mk (p.1 - (p.2 : Int)) (p.1 + (p.2 : Int))))

/-- Integer points selected by a python `slice(a, b)` applied to an axis of
size `n` (the clamping/negative-wrapping rules of `slice.indices`). -/
def pySliceIdx (n : Nat) (s : NSlice) : List Nat :=
  let st : Nat := if s.start < 0 then (n + s.start).toNat else min s.start.toNat n
  let sp : Nat := if s.stop < 0 then (n + s.stop).toNat else min s.stop.toNat n
  (List.range (sp - st)).map (fun k => st + k)

/-- Coordinates of the sub-array `mask[s_i]` for a tuple of slices (missing
trailing dimensions are taken whole, as in numpy). -/
def sliceCoords (shape : List Nat) (ss : List NSlice) : List (List Nat) :=
  match shape, ss with
  | [], _ => [[]]
  | n :: rest, [] => (List.range n).flatMap (fun i => (sliceCoords rest []).map (i :: ·))
  | n :: rest, s :: srest => (pySliceIdx n s).flatMap (fun i => (sliceCoords rest srest).map (i :: ·))

/-- `np.sum(mask[s_i] > 0)`: foreground voxels of a mask inside a patch. -/
def maskPatchCount (m : NDArr) (ss : List NSlice) : Nat :=
  ((sliceCoords m.shape ss).filter (fun c => decide (0 < m.val c))).length

/-- `filter_size` (datasets.py:149-154). -/
def filter_size (slices : List (List NSlice)) (mask : NDArr) (min_size : Nat) : List (List NSlice) :=
  slices.filter (fun s => decide (min_size < maskPatchCount mask s))

/-- `itertools.product` over a list of per-dimension ranges (first dimension
varies slowest, as in python). -/
def iterProduct : List (List Int) → List (List Int)
  | [] => [[]]
  | xs :: rest => xs.flatMap (fun x => (iterProduct rest).map (x :: ·))

/-- `min_bb` of one mask in `get_slices_bb` (datasets.py:21-28): per-dimension
minimum foreground coordinate plus `patch_half`. -/
def minBB (m : NDArr) (patch_size : List Nat) : Except String (List Int) :=
  (npMinAx (fgVoxels m)).map
    (fun mins => (mins.zip (patchHalf patch_size)).map (fun p => (p.1 : Int) + (p.2 : Int)))

/-- `max_bb` of one mask in `get_slices_bb` (datasets.py:29-36): per-dimension
maximum foreground coordinate minus `patch_half`. -/
def maxBB (m : NDArr) (patch_size : List Nat) : Except String (List Int) :=
  (npMaxAx (fgVoxels m)).map
    (fun maxs => (maxs.zip (patchHalf patch_size)).map (fun p => (p.1 : Int) - (p.2 : Int)))

/-- The per-dimension center ranges of one mask in the list branch of
`get_slices_bb` (datasets.py:38-44):
`np.concatenate([np.arange(min_bb_i, max_bb_i, step), [max_bb_i]])`. -/
def bbDimRanges (m : NDArr) (patch_size : List Nat) (overlap : Nat) :
    Except String (List (List Int)) := do
  let mn ← minBB m patch_size
  let mx ← maxBB m patch_size
  pure ((mn.zip (mx.zip (bbSteps patch_size overlap))).map
    (fun t => npArange t.1 t.2.1 t.2.2 ++ [t.2.1]))

/-- `get_slices_bb` (datasets.py:14-80), list-of-masks branch (the branch every
dataset in this file exercises: the callers always pass lists). -/
def get_slices_bb (masks : List NDArr) (patch_size : List Nat) (overlap : Nat)
    (filtered : Bool) (min_size : Nat) : Except String (List (List (List NSlice))) := do
  let dimRanges ← masks.mapM (fun m => bbDimRanges m patch_size overlap)
  let patchSlices := dimRanges.map
    (fun dr => centers_to_slice (iterProduct dr) (patchHalf patch_size))
  if filtered then
    pure ((patchSlices.zip masks).map (fun p => filter_size p.1 p.2 min_size))
  else
    pure patchSlices

/-- Python `int(q)` for a rational: truncation toward zero (`Int.tdiv`). -/
def pyInt (q : ℚ) : Int :=
  Int.tdiv q.num (q.den : Int)

/-- Python `l[:k]` for a possibly negative `k`. -/
def pyTake {α : Type} (l : List α) (k : Int) : List α :=
  if k < 0 then l.take (l.length - (-k).toNat) else l.take k.toNat

/-- Coordinates cast from `Nat` to `Int` (centers handed to `centers_to_slice`). -/
def coordInt (c : List Nat) : List Int :=
  c.map Int.ofNat

/-- `np.logical_not` on a mask. -/
def npLogicalNot (a : NDArr) : NDArr :=
  ⟨a.shape, fun c => if a.val c = 0 then 1 else 0⟩

/-- `np.logical_and` of two same-shaped masks. -/
def npLogicalAnd (a b : NDArr) : NDArr :=
  ⟨a.shape, fun c => if 0 < a.val c ∧ 0 < b.val c then 1 else 0⟩

/-- Number of conditions in the `zip(mesh, min_i, max_i, patch_half, max_shape)`
of `get_balanced_slices` (datasets.py:183-195); `zip` truncates to the
shortest argument (`mesh` and `max_shape` both have `shape0.length` entries). -/
def legalCondCount (shape0 mins maxs half : List Nat) : Nat :=
  min (min shape0.length mins.length) (min maxs.length (min half.length shape0.length))

/-- The legal-position test of `get_balanced_slices` at one coordinate:
every zipped dimension `j` must satisfy
`max(min_ij, p_ij) <= c_j` and `c_j <= min(max_ij, max_j - p_ij)`. -/
def legalB (shape0 mins maxs half : List Nat) (c : List Nat) : Bool :=
  (List.range (legalCondCount shape0 mins maxs half)).all (fun j =>
    decide (max (mins.getD j 0) (half.getD j 0) ≤ c.getD j 0 ∧
      (c.getD j 0 : Int) ≤ min ((maxs.getD j 0 : Int)) ((shape0.getD j 0 : Int) - (half.getD j 0 : Int))))

/-- The legal-position mask of one case as an array over `masks[0].shape`
(the reduced conjunction of the mesh comparisons); `reduce` over an empty
sequence of conditions raises `TypeError` in python. -/
def legalArr (shape0 mins maxs half : List Nat) : Except String NDArr :=
  if legalCondCount shape0 mins maxs half = 0 then
    .error "reduce() of empty iterable with no initial value"
  else
    .ok ⟨shape0, fun c => if legalB shape0 mins maxs half c then 1 else 0⟩

/-- The bounding-box source of `get_balanced_slices`: the masks themselves or,
when given, the regions of interest (datasets.py:164-175). -/
def bbSrcOf (masks : List NDArr) (rois : Option (List NDArr)) : List NDArr :=
  match rois with
  | none => masks
  | some rs => rs

/-- The background masks of `get_balanced_slices` (datasets.py:168, 172-175):
the complement of each mask, intersected with the region of interest when one
is given. -/
def bckMasksOf (masks : List NDArr) (rois : Option (List NDArr)) : List NDArr :=
  match rois with
  | none => masks.map npLogicalNot
  | some rs =>
      ((masks.map npLogicalNot).zip rs).map (fun (p : NDArr × NDArr) => npLogicalAnd p.1 p.2)

/-- The pure tail of `get_balanced_slices` (datasets.py:197-254): legal-mask
filtering, voxel extraction, lesion slices, and the per-case concatenation of
lesion and subsampled background slices (both `min_size` branches). -/
def balancedAssemble (rperm : Nat → List Nat) (masks : List NDArr) (half : List Nat)
    (legals bckMasks : List NDArr) (min_size : Nat) (negRatio : ℚ) :
    List (List (List NSlice)) :=
  let fmasks := (masks.zip legals).map (fun p => npLogicalAnd p.1 p.2)
  let fbckMasks := (bckMasks.zip legals).map (fun (p : NDArr × NDArr) => npLogicalAnd p.1 p.2)
  let lesionVoxels := fmasks.map get_mask_voxels
  let bckVoxels := fbckMasks.map get_mask_voxels
  let lesionSlices := lesionVoxels.map (fun vox => centers_to_slice (vox.map coordInt) half)
  if 0 < min_size then
    let bckSlices := bckVoxels.map (fun vox => centers_to_slice (vox.map coordInt) half)
    let fbckSlices := (bckSlices.zip masks).map (fun p => filter_size p.1 p.2 min_size)
    (lesionSlices.zip fbckSlices).map (fun p =>
      p.1 ++ (pyTake (rperm p.2.length) (pyInt (negRatio * (p.1.length : ℚ)))).map
        (fun idx => p.2.getD idx []))
  else
    let fbckSlices := (lesionVoxels.zip bckVoxels).map (fun p =>
      centers_to_slice
        ((pyTake (rperm p.2.length) (pyInt (negRatio * (p.1.length : ℚ)))).map
          (fun idx => coordInt (p.2.getD idx []))) half)
    (lesionSlices.zip fbckSlices).map (fun p => p.1 ++ p.2)

/-- `get_balanced_slices` (datasets.py:157-254).  `rperm n` stands for
`np.random.permutation(n)`; any permutation the library can return is a value
of the oracle. -/
def get_balanced_slices (rperm : Nat → List Nat) (masks : List NDArr)
    (patch_size : List Nat) (rois : Option (List NDArr)) (min_size : Nat)
    (negRatio : ℚ) : Except String (List (List (List NSlice))) := do
  let half := patchHalf patch_size
  let minbb ← (bbSrcOf masks rois).mapM (fun m => npMinAx (fgVoxels m))
  let maxbb ← (bbSrcOf masks rois).mapM (fun m => npMaxAx (fgVoxels m))
  let bckMasks := bckMasksOf masks rois
  let shape0 ← match masks with
    | [] => Except.error "list index out of range"
    | m :: _ => pure m.shape
  let legals ← (minbb.zip maxbb).mapM (fun p => legalArr shape0 p.1 p.2 half)
  pure (balancedAssemble rperm masks half legals bckMasks min_size negRatio)

/-- Indices of the strictly positive entries of a weight vector: the support
`torch.multinomial` can draw from. -/
def posIndices (w : List ℚ) : List Nat :=
  (List.range w.length).filter (fun i => decide (0 < w.getD i 0))

/-- Number of distinct indices with nonzero (positive) weight. -/
def posCount (w : List ℚ) : Nat :=
  (posIndices w).length

/-- `torch.multinomial(weights, k, replacement=True)`, parametrised by a draw
oracle `rng`: draw `j` picks the `rng (off + j) mod support-size`-th positive
index, so every support outcome corresponds to some oracle.  torch raises on a
negative weight and on an all-zero weight vector. -/
def multinomial (rng : Nat → Nat) (off : Nat) (w : List ℚ) (k : Nat) :
    Except String (List Nat) :=
  if w.any (fun x => decide (x < 0)) then
    .error "invalid multinomial distribution (encountering probability entry < 0)"
  else if (posIndices w).length = 0 then
    .error "invalid multinomial distribution (sum of probabilities <= 0)"
  else
    .ok ((List.range k).map (fun j => (posIndices w).getD (rng (off + j) % (posIndices w).length) 0))

/-- `a.unique()`: torch returns the distinct values in sorted order. -/
def tunique (a : List Nat) : List Nat :=
  List.insertionSort (· ≤ ·) a.dedup

/-- `weights[b] = 0` for a list of indices `b`. -/
def zeroAt (w : List ℚ) (b : List Nat) : List ℚ :=
  (List.range w.length).map (fun i => if i ∈ b then 0 else w.getD i 0)

/-- One pass structure of the `while have < want` loop of `sample`
(datasets.py:685-695).  `fuel` only bounds the recursion; every unique batch
is nonempty, so `fuel = want` never runs out (proved below). -/
def sampleAux (rng : Nat → Nat) : Nat → List ℚ → Nat → Nat → List Nat → Nat →
    Except String (List Nat)
  | fuel, w, want, hv, acc, off =>
    if want ≤ hv then .ok acc
    else
      match fuel with
      | 0 => .error "sample loop ran out of fuel"
      | fuel' + 1 => do
        let a ← multinomial rng off w (want - hv)
        let b := tunique a
        sampleAux rng fuel' (zeroAt w b) want (hv + b.length) (acc ++ b) (off + (want - hv))

/-- `sample(weights, want)` (datasets.py:685-695): collect `want` distinct
indices by repeated multinomial draws, zeroing each drawn index.
`torch.empty(want)` raises on a negative size. -/
def sample (rng : Nat → Nat) (weights : List ℚ) (want : Int) :
    Except String (List Nat) :=
  if want < 0 then .error "cannot allocate a tensor of negative size"
  else sampleAux rng want.toNat weights want.toNat 0 [] 0

/-- `torch.max` of a weight vector (raises on an empty tensor). -/
def tmax (w : List ℚ) : Except String ℚ :=
  match w with
  | [] => .error "max of an empty tensor"
  | x :: xs => .ok (xs.foldl max x)

/-- `torch.clamp(x, lo, hi) = min(max(x, lo), hi)`. -/
def tclamp (x lo hi : ℚ) : ℚ :=
  min (max x lo) hi

/-- State of `WeightedSubsetRandomSampler` (datasets.py:698-757). -/
structure WSRS where
  step : Nat
  step_inc : Nat
  rate : ℚ
  rate_increase : ℚ
  total_samples : Nat
  num_samples : Nat
  weights : List ℚ
  initial : List Nat
  indices : List Nat

/-- The constructor (datasets.py:700-717); `init_perm` stands for
`torch.randperm(num_samples)`.  `int(np.ceil(num_samples / sample_div))` is
`(n + d - 1) / d` for a positive divisor (true division is in force via
`from __future__ import division`; `sample_div = 0` would raise). -/
def mkWSRS (num_samples sample_div : Nat) (initial_rate rate_increase : ℚ)
    (init_perm : List Nat) : WSRS :=
  { step := 0
    step_inc := sample_div
    rate := initial_rate
    rate_increase := rate_increase
    total_samples := num_samples
    num_samples := (num_samples + sample_div - 1) / sample_div
    weights := List.replicate num_samples (32767 : ℚ)
    initial := init_perm
    indices := init_perm.take ((num_samples + sample_div - 1) / sample_div) }

/-- `update_weights` (datasets.py:725-726): `self.weights[idx] = weights`. -/
def scatterAt (w : List ℚ) (idx : List Nat) (vals : List ℚ) : List ℚ :=
  ((idx.zip vals).foldl (fun acc p => acc.set p.1 p.2) w)

/-- `update_weights` on the sampler state. -/
def update_weights (s : WSRS) (vals : List ℚ) (idx : List Nat) : WSRS :=
  { s with weights := scatterAt s.weights idx vals }

/-- `n_hard = int(self.num_samples * self.rate)` (datasets.py:738). -/
def nHard (s : WSRS) : Int :=
  pyInt ((s.num_samples : ℚ) * s.rate)

/-- `n_easy = self.num_samples - n_hard` (datasets.py:739). -/
def nEasy (s : WSRS) : Int :=
  (s.num_samples : Int) - nHard s

/-- `easy_w = torch.clamp(max_w - self.weights, 0, max_w)` (datasets.py:744). -/
def easyW (s : WSRS) (max_w : ℚ) : List ℚ :=
  s.weights.map (fun x => tclamp (max_w - x) 0 max_w)

/-- Randomness oracles consumed by one `update()` call: the two multinomial
streams and the `torch.randperm` used to shuffle the mixed indices. -/
structure Orac where
  easyR : Nat → Nat
  hardR : Nat → Nat
  shuf : Nat → List Nat

/-- `mixed_indices[torch.randperm(len(mixed_indices))]` (gathering by a
permutation). -/
def applyShuffle (p : List Nat) (l : List Nat) : List Nat :=
  p.map (fun i => l.getD i 0)

/-- The curriculum branch of `update` (datasets.py:737-750): the python
statements up to the assignment of `self.indices`. -/
def curriculumDraw (o : Orac) (s : WSRS) : Except String (List Nat) := do
  let max_w ← tmax s.weights
  let easy_idx ← sample o.easyR (easyW s max_w) (nEasy s)
  let hard_w := zeroAt s.weights easy_idx
  let hard_idx ← sample o.hardR hard_w (nHard s)
  let mixed := hard_idx ++ easy_idx
  pure (applyShuffle (o.shuf mixed.length) mixed)

/-- The trailing rate-increase block of `update` (datasets.py:756-757),
executed when no exception was raised earlier. -/
def rateStep (s : WSRS) : WSRS :=
  if s.step_inc < s.step ∧ s.step % s.step_inc = 0 then
    { s with rate := min (s.rate + s.rate_increase) 1 }
  else s

/-- `initial[idx_ini:idx_end]` (datasets.py:734-736). -/
def pyWindow (l : List Nat) (ini fin : Nat) : List Nat :=
  (l.drop ini).take (fin - ini)

/-- `update` (datasets.py:728-757).  The returned pair is the state after the
call together with `none` for a normal return or `some msg` for a raised
exception; python increments `self.step` before anything can raise, and skips
both the `indices` assignment and the rate block when sampling raises. -/
def update (o : Orac) (s0 : WSRS) : WSRS × Option String :=
  let s := { s0 with step := s0.step + 1 }
  if s.step < s.step_inc then
    (rateStep { s with
      indices := pyWindow s.initial (s.step * s.num_samples) ((s.step + 1) * s.num_samples) }, none)
  else
    match curriculumDraw o s with
    | .ok idx => (rateStep { s with indices := idx }, none)
    | .error e => (s, some e)

/-- A sequence of `update` calls (errors propagate their partial state, as an
exception leaves the python object partially mutated). -/
def runUpdates (os : List Orac) (s : WSRS) : WSRS :=
  os.foldl (fun st o => (update o st).1) s

/-- A shuffle oracle is valid when `shuf n` really is a permutation of
`range n` (what `torch.randperm` guarantees). -/
def validShuf (o : Orac) : Prop :=
  ∀ n, (o.shuf n).Perm (List.range n)

/-- Clamped start index of a python slice on an axis of size `n`. -/
def pyStart (n : Nat) (s : NSlice) : Nat :=
  if s.start < 0 then (n + s.start).toNat else min s.start.toNat n

/-- Length of `range(*slice(a, b).indices(n))`. -/
def pySliceLen (n : Nat) (s : NSlice) : Nat :=
  (pySliceIdx n s).length

/-- `np.expand_dims(a, 0)`: a leading axis of size 1. -/
def expandDims0 (a : NDArr) : NDArr :=
  ⟨1 :: a.shape, fun c => a.val c.tail⟩

/-- Basic numpy indexing `a[ss]` by a tuple of slices (`none` is the full
slice `slice(None, None)`).  Out-of-range slice endpoints clamp and never
raise; more indices than dimensions raise `IndexError`.  `astype` does not
change shapes and is dropped. -/
def npIndex (a : NDArr) (ss : List (Option NSlice)) : Except String NDArr :=
  if a.shape.length < ss.length then .error "too many indices for array"
  else
    .ok ⟨(a.shape.zip ss).map (fun p => match p.2 with
            | none => p.1
            | some s => pySliceLen p.1 s) ++ a.shape.drop ss.length,
         fun c => a.val (c.zipWith (fun cj st => st + cj)
            ((a.shape.zip ss).map (fun p => match p.2 with
              | none => 0
              | some s => pyStart p.1 s) ++ List.replicate (a.shape.length - ss.length) 0))⟩

/-- `np.cumsum` of the per-case patch counts. -/
def cumsum : List Nat → List Nat
  | [] => []
  | x :: xs => x :: (cumsum xs).map (x + ·)

/-- `np.min(np.where(cum > index))`: the first position whose cumulative count
exceeds `index` (`none` embeds the numpy reduction error on an empty where). -/
def firstGt (index : Nat) : List Nat → Option Nat
  | [] => none
  | c :: cs => if index < c then some 0 else (firstGt index cs).map (· + 1)

/-- `np.ones_like(d[0] if len(d) > 1 else d)` (datasets.py:297-302, and the
`d[0] > np.min(d[0])` variant of lines 316-321, whose `ones_like` has the same
shape): the all-ones mask used when neither labels nor masks are given. -/
def dataSingle (d : NDArr) : NDArr :=
  if 1 < d.shape.headD 0 then ⟨d.shape.tail, fun _ => 1⟩ else ⟨d.shape, fun _ => 1⟩

/-- `patch_size` as passed to the constructor: a bare int is replicated to the
dimensionality of `cases[0]` (datasets.py:280-282). -/
inductive PatchSpec where
  | int (p : Nat)
  | tup (l : List Nat)

/-- State of `GenericSegmentationCroppingDataset` after `__init__`. -/
structure GSCDataset where
  sampler : Bool
  cases : List NDArr
  labels : Option (List NDArr)
  patch_size : List Nat
  patch_slices : List (List (List NSlice))
  max_slice : List Nat

/-- `GenericSegmentationCroppingDataset.__init__` (datasets.py:264-326),
with `rperm` the `np.random.permutation` oracle of the balanced indexer. -/
def mkDataset (rperm : Nat → List Nat) (cases : List NDArr)
    (labels masks : Option (List NDArr)) (balanced : Bool)
    (overlap min_size : Nat) (ps : PatchSpec) (negRatio : ℚ)
    (samplerFlag : Bool) : Except String GSCDataset := do
  let shape0 ← match cases with
    | [] => Except.error "list index out of range"
    | c :: _ => pure c.shape
  let psz := match ps with
    | .int p => List.replicate shape0.length p
    | .tup l => l
  let slices ← match balanced, masks, labels with
    | true, some ms, some ls => get_balanced_slices rperm ls psz (some ms) 0 negRatio
    | true, some _, none => Except.error "argument of type NoneType is not iterable"
    | true, none, some ls => get_balanced_slices rperm ls psz (some ls) 0 negRatio
    | true, none, none => get_slices_bb (cases.map dataSingle) psz 0 false 0
    | false, some ms, _ => get_slices_bb ms psz overlap true min_size
    | false, none, some ls => get_slices_bb ls psz overlap true min_size
    | false, none, none => get_slices_bb (cases.map dataSingle) psz overlap true min_size
  pure { sampler := samplerFlag
         cases := cases
         labels := labels
         patch_size := psz
         patch_slices := slices
         max_slice := cumsum (slices.map List.length) }

/-- The three return shapes of `__getitem__` (with/without labels, with the
sampler flag adding the index). -/
inductive GetOut where
  | labeled (inputs target : NDArr)
  | labeledIdx (inputs target : NDArr) (index : Nat)
  | unlabeled (inputs : NDArr) (case_idx : Nat) (slice_i : List NSlice)

/-- `__getitem__` (datasets.py:328-352). -/
def getItem (ds : GSCDataset) (index : Nat) : Except String GetOut := do
  let case_idx ← match firstGt index ds.max_slice with
    | none => Except.error "zero-size array to reduction operation minimum which has no identity"
    | some j => pure j
  let case ← match ds.cases.get? case_idx with
    | none => Except.error "list index out of range"
    | some c => pure c
  let boundaries := 0 :: ds.max_slice
  let patch_idx := index - boundaries.getD case_idx 0
  let case_slices ← match ds.patch_slices.get? case_idx with
    | none => Except.error "list index out of range"
    | some cs => pure cs
  let slice_i ← match case_slices.get? patch_idx with
    | none => Except.error "list index out of range"
    | some s => pure s
  let inputs ← npIndex case (none :: slice_i.map some)
  match ds.labels with
  | some ls => do
      let lab ← match ls.get? case_idx with
        | none => Except.error "list index out of range"
        | some l => pure l
      let sliced ← npIndex lab (slice_i.map some)
      let target := expandDims0 sliced
      if ds.sampler then pure (.labeledIdx inputs target index)
      else pure (.labeled inputs target)
  | none => pure (.unlabeled inputs case_idx slice_i)

/-- `__len__` (datasets.py:354-355): `self.max_slice[-1]`. -/
def dsLen (ds : GSCDataset) : Except String Nat :=
  match ds.max_slice.getLast? with
  | none => .error "index -1 is out of bounds"
  | some v => .ok v

/-- The identity permutation oracle (`np.random.permutation` /
`torch.randperm` returning `0, 1, ..., n-1`). -/
def idPerm : Nat → List Nat := fun n => List.range n

/-- An `update` oracle drawing deterministically (both multinomial streams
constantly pick the first positive index) and shuffling with the identity. -/
def oracZero : Orac := ⟨fun _ => 0, fun _ => 0, idPerm⟩

/-- The (10,10,10) mask with a single foreground voxel at (5,5,5) of the
spec's worked example. -/
def cexMask3d : NDArr := ⟨[10, 10, 10], fun c => if c = [5, 5, 5] then 1 else 0⟩

/-- A 1-d mask of shape (10) whose only foreground voxel sits at the origin. -/
def cexMaskEdge : NDArr := ⟨[10], fun c => if c = [0] then 1 else 0⟩

/-- A 1-d mask of shape (5) that is foreground everywhere. -/
def cexMaskAllFg : NDArr := ⟨[5], fun _ => 1⟩

/-- A 1-d mask of shape (5) with foreground voxels at 1 and 3. -/
def witMaskTwoFg : NDArr := ⟨[5], fun c => if c = [1] ∨ c = [3] then 1 else 0⟩

/-- A mask with no foreground voxel at all. -/
def witMaskZero : NDArr := ⟨[3], fun _ => 0⟩

/-- A single-channel case volume of shape (1, 4, 4). -/
def cexCaseOneChan : NDArr := ⟨[1, 4, 4], fun _ => 1⟩

/-- A two-channel 1-d case volume of shape (2, 5). -/
def witCase2d : NDArr := ⟨[2, 5], fun _ => 1⟩

/-- A 1-d label map of shape (5) with one lesion voxel at 2. -/
def witLabel1d : NDArr := ⟨[5], fun c => if c = [2] then 1 else 0⟩

/-- A 1-d mask of shape (6) with foreground voxels 1..3 (witness input for the
grid characterisation). -/
def witMaskMid : NDArr := ⟨[6], fun c => if c = [1] ∨ c = [2] ∨ c = [3] then 1 else 0⟩

/-- The sampler of the curriculum counterexample: 5 total samples, warm-up
threshold 2, default rates, identity initial permutation. -/
def cexSampler5 : WSRS := mkWSRS 5 2 (1 / 10) (1 / 20) [0, 1, 2, 3, 4]

/-- A curriculum-state sampler with budget 10 and rate 3/20 over 20 weighted
samples (weights 0..19). -/
def cexSampler10 : WSRS :=
  { step := 5
    step_inc := 2
    rate := 3 / 20
    rate_increase := 1 / 20
    total_samples := 20
    num_samples := 10
    weights := (List.range 20).map (fun i => (i : ℚ))
    initial := List.range 20
    indices := [] }

/-- A curriculum-state sampler with budget 2 and rate 1/4 over 3 weighted
samples: `int(2 * 1/4) = 0` hard samples although `ceil(2 * 1/4) = 1`. -/
def cexSampler2 : WSRS :=
  { step := 4
    step_inc := 2
    rate := 1 / 4
    rate_increase := 0
    total_samples := 3
    num_samples := 2
    weights := [0, 1, 2]
    initial := [0, 1, 2]
    indices := [] }

/-- The state of `cexSampler5` after its first (warm-up) `update`: the window
`initial[3:6]` is clamped to `[3, 4]`, two indices for a budget of three. -/
def cexS5a : WSRS :=
  { step := 1
    step_inc := 2
    rate := 1 / 10
    rate_increase := 1 / 20
    total_samples := 5
    num_samples := 3
    weights := List.replicate 5 (32767 : ℚ)
    initial := [0, 1, 2, 3, 4]
    indices := [3, 4] }

/-- A two-channel 1-d case volume of shape (2, 6), matching `witMaskMid`. -/
def witCase26 : NDArr := ⟨[2, 6], fun _ => 1⟩

/-- The dataset built from `witCase26` with labels `witMaskMid` (exhaustive
indexer, patch size 2): one patch, the slice `(1, 3)`. -/
def dsWit : GSCDataset :=
  { sampler := false
    cases := [witCase26]
    labels := some [witMaskMid]
    patch_size := [2, 2]
    patch_slices := [[[⟨1, 3⟩]]]
    max_slice := [1] }

/-- Per-dimension patch length of an emitted slice tuple: dimension `j` spans
exactly `2 * (patch_size_j / 2)` indices. -/
def dimLenOk (patch_size : List Nat) (s : List NSlice) : Prop :=
  ∀ j, j < s.length →
    (s.getD j default).stop - (s.getD j default).start = ((2 * (patch_size.getD j 0 / 2) : Nat) : Int)

/-- A slice tuple lies fully inside an array of the given shape. -/
def sliceInBounds (shape : List Nat) (s : List NSlice) : Prop :=
  ∀ j, j < s.length →
    0 ≤ (s.getD j default).start ∧ (s.getD j default).stop ≤ ((shape.getD j 0 : Nat) : Int)

/-- Consistency of the arrays handed to
`GenericSegmentationCroppingDataset.__init__`: per-case labels and masks
(matching counts, one dimension lower than the channel-leading cases, masks no
higher-dimensional than labels), and cases with more than one channel when
neither labels nor masks are supplied. -/
def DSWellFormed (cases : List NDArr) (labels masks : Option (List NDArr)) : Prop :=
  (∀ ls, labels = some ls → ls.length = cases.length ∧
    ∀ i, i < cases.length →
      (ls.getD i default).shape.length < (cases.getD i default).shape.length) ∧
  (∀ ms, masks = some ms → ms.length = cases.length ∧
    ∀ i, i < cases.length →
      (ms.getD i default).shape.length < (cases.getD i default).shape.length ∧
      (∀ ls, labels = some ls →
        (ms.getD i default).shape.length ≤ (ls.getD i default).shape.length)) ∧
  (labels = none → masks = none → ∀ c ∈ cases, 1 < c.shape.headD 0)

/-! Basic lemmas about the list-level building blocks. -/

theorem getD_map_of_lt {α β : Type} (f : α → β) (l : List α) (j : Nat)
    (hj : j < l.length) (da : α) (db : β) :
    (l.map f).getD j db = f (l.getD j da) := by
  rw [List.getD_eq_getElem?_getD, List.getD_eq_getElem?_getD, List.getElem?_map]
  rw [List.getElem?_eq_getElem hj]
  simp

theorem getD_zip_of_lt {α β : Type} (a : List α) (b : List β) (j : Nat)
    (hj : j < (a.zip b).length) (da : α) (db : β) :
    (a.zip b).getD j (da, db) = (a.getD j da, b.getD j db) := by
  rw [List.length_zip] at hj
  rw [List.getD_eq_getElem?_getD, List.getD_eq_getElem?_getD, List.getD_eq_getElem?_getD]
  have ha : j < a.length := lt_of_lt_of_le hj (min_le_left _ _)
  have hb : j < b.length := lt_of_lt_of_le hj (min_le_right _ _)
  have : j < (a.zip b).length := by rw [List.length_zip]; exact hj
  rw [List.getElem?_eq_getElem ha, List.getElem?_eq_getElem hb, List.getElem?_eq_getElem this]
  simp [List.getElem_zip]

theorem getD_range_of_lt (n j : Nat) (hj : j < n) (d : Nat) :
    (List.range n).getD j d = j := by
  rw [List.getD_eq_getElem?_getD, List.getElem?_range hj]
  rfl

theorem allCoords_mem {shape c : List Nat} (h : c ∈ allCoords shape) :
    c.length = shape.length ∧ ∀ j, j < shape.length → c.getD j 0 < shape.getD j 0 := by
  induction shape generalizing c with
  | nil =>
      simp [allCoords] at h
      subst h
      exact ⟨rfl, by intro j hj; cases hj⟩
  | cons n rest ih =>
      simp only [allCoords, List.mem_flatMap, List.mem_map, List.mem_range] at h
      obtain ⟨i, hi, c', hc', rfl⟩ := h
      obtain ⟨hlen, hlt⟩ := ih hc'
      refine ⟨by simp [hlen], ?_⟩
      intro j hj
      cases j with
      | zero => simpa using hi
      | succ k =>
          have : k < rest.length := Nat.lt_of_succ_lt_succ hj
          simpa using hlt k this

theorem allCoords_nodup (shape : List Nat) : (allCoords shape).Nodup := by
  induction shape with
  | nil => simp [allCoords]
  | cons n rest ih =>
      unfold allCoords
      rw [List.nodup_flatMap]
      constructor
      · intro i _
        exact ih.map (fun a b h => by injection h)
      · refine List.Pairwise.imp ?_ (List.nodup_range n)
        intro i j hij
        intro x hx hy
        simp only [List.mem_map] at hx hy
        obtain ⟨a, _, rfl⟩ := hx
        obtain ⟨b, _, hb⟩ := hy
        exact hij (by injection hb with h1 h2; exact h1.symm)

theorem mem_fgVoxels {m : NDArr} {c : List Nat} :
    c ∈ fgVoxels m ↔ c ∈ allCoords m.shape ∧ 0 < m.val c := by
  simp [fgVoxels, List.mem_filter]

theorem mem_get_mask_voxels {m : NDArr} {c : List Nat} :
    c ∈ get_mask_voxels m ↔ c ∈ allCoords m.shape ∧ 0 < m.val c := by
  simp [get_mask_voxels, List.mem_filter]

theorem getD_zipWith_of_lt {α β γ : Type} (f : α → β → γ) (a : List α) (b : List β)
    (j : Nat) (hj : j < min a.length b.length) (da : α) (db : β) (dc : γ) :
    (List.zipWith f a b).getD j dc = f (a.getD j da) (b.getD j db) := by
  induction a generalizing b j with
  | nil => simp at hj
  | cons x xs ih =>
      cases b with
      | nil => simp at hj
      | cons y ys =>
          cases j with
          | zero => rfl
          | succ k =>
              have : k < min xs.length ys.length := by
                simp only [List.length_cons] at hj
                omega
              simpa using ih ys k this

theorem foldl_zipWith_length (g : Nat → Nat → Nat) :
    ∀ (cs : List (List Nat)) (acc : List Nat) (d : Nat), acc.length = d →
      (∀ c ∈ cs, c.length = d) →
      (cs.foldl (fun a c2 => a.zipWith g c2) acc).length = d
  | [], acc, d, hacc, _ => hacc
  | c2 :: cs2, acc, d, hacc, hcs => by
      have h2 : c2.length = d := hcs c2 (by simp)
      have : (acc.zipWith g c2).length = d := by
        rw [List.length_zipWith, hacc, h2]; omega
      simpa using foldl_zipWith_length g cs2 (acc.zipWith g c2) d this
        (fun c hc => hcs c (by simp [hc]))

theorem foldl_zipWith_max_getD :
    ∀ (cs : List (List Nat)) (acc : List Nat) (d : Nat), acc.length = d →
      (∀ c ∈ cs, c.length = d) → ∀ j, j < d →
      ∃ src, (src = acc ∨ src ∈ cs) ∧
        (cs.foldl (fun a c2 => a.zipWith max c2) acc).getD j 0 = src.getD j 0
  | [], acc, d, _, _, j, _ => ⟨acc, Or.inl rfl, rfl⟩
  | c2 :: cs2, acc, d, hacc, hcs, j, hj => by
      have h2 : c2.length = d := hcs c2 (by simp)
      have hlen : (acc.zipWith max c2).length = d := by
        rw [List.length_zipWith, hacc, h2]; omega
      obtain ⟨src, hsrc, hval⟩ := foldl_zipWith_max_getD cs2 (acc.zipWith max c2) d hlen
        (fun c hc => hcs c (by simp [hc])) j hj
      rcases hsrc with rfl | hmem
      · have hz : (acc.zipWith max c2).getD j 0 = max (acc.getD j 0) (c2.getD j 0) := by
          apply getD_zipWith_of_lt
          omega
        rcases max_choice (acc.getD j 0) (c2.getD j 0) with hc | hc
        · exact ⟨acc, Or.inl rfl, by simp only [List.foldl_cons] at hval ⊢; rw [hval, hz, hc]⟩
        · exact ⟨c2, Or.inr (by simp), by simp only [List.foldl_cons] at hval ⊢; rw [hval, hz, hc]⟩
      · exact ⟨src, Or.inr (by simp [hmem]), by simpa using hval⟩

theorem npMinAx_ok_length {coords : List (List Nat)} {out : List Nat} {d : Nat}
    (h : npMinAx coords = .ok out) (hd : ∀ c ∈ coords, c.length = d) :
    out.length = d := by
  match coords, h with
  | c :: cs, h =>
    simp only [npMinAx, Except.ok.injEq] at h
    subst h
    exact foldl_zipWith_length min cs c d (hd c (by simp)) (fun c2 hc2 => hd c2 (by simp [hc2]))

theorem npMaxAx_ok_length {coords : List (List Nat)} {out : List Nat} {d : Nat}
    (h : npMaxAx coords = .ok out) (hd : ∀ c ∈ coords, c.length = d) :
    out.length = d := by
  match coords, h with
  | c :: cs, h =>
    simp only [npMaxAx, Except.ok.injEq] at h
    subst h
    exact foldl_zipWith_length max cs c d (hd c (by simp)) (fun c2 hc2 => hd c2 (by simp [hc2]))

theorem npMaxAx_ok_mem {coords : List (List Nat)} {out : List Nat} {d : Nat}
    (h : npMaxAx coords = .ok out) (hd : ∀ c ∈ coords, c.length = d) :
    ∀ j, j < d → ∃ src ∈ coords, out.getD j 0 = src.getD j 0 := by
  match coords, h with
  | c :: cs, h =>
    simp only [npMaxAx, Except.ok.injEq] at h
    subst h
    intro j hj
    obtain ⟨src, hsrc, hval⟩ := foldl_zipWith_max_getD cs c d (hd c (by simp))
      (fun c2 hc2 => hd c2 (by simp [hc2])) j hj
    rcases hsrc with rfl | hmem
    · exact ⟨src, by simp, hval⟩
    · exact ⟨src, by simp [hmem], hval⟩

theorem npArange_mem {lo hi : Int} {st : Nat} (hst : 1 ≤ st) {x : Int}
    (hx : x ∈ npArange lo hi st) :
    lo ≤ x ∧ x < hi ∧ ∃ k : Nat, x = lo + st * k := by
  unfold npArange at hx
  obtain ⟨k, hk, rfl⟩ := List.mem_map.mp hx
  have hkn := List.mem_range.mp hk
  have hnn : (0 : Int) ≤ (st : Int) * (k : Int) :=
    mul_nonneg (Int.natCast_nonneg st) (Int.natCast_nonneg k)
  refine ⟨by omega, ?_, ⟨k, rfl⟩⟩
  set T := (hi - lo).toNat with hT
  have h1 : ((T + (st - 1)) / st) * st ≤ T + (st - 1) := Nat.div_mul_le_self _ _
  have h2 : k + 1 ≤ (T + (st - 1)) / st := hkn
  have h3 : (k + 1) * st ≤ ((T + (st - 1)) / st) * st := Nat.mul_le_mul_right st h2
  have h4 : k * st + st ≤ T + (st - 1) := by
    calc k * st + st = (k + 1) * st := by ring
    _ ≤ ((T + (st - 1)) / st) * st := h3
    _ ≤ T + (st - 1) := h1
  have h5 : k * st < T := by omega
  have h6 : (0 : Int) < hi - lo := by
    by_contra hc
    push_neg at hc
    have : T = 0 := by
      rw [hT]
      exact Int.toNat_of_nonpos hc
    omega
  have h7 : (T : Int) = hi - lo := Int.toNat_of_nonneg (le_of_lt h6)
  have h8 : ((k * st : Nat) : Int) < (T : Int) := by exact_mod_cast h5
  push_cast at h8
  rw [mul_comm ((st : Int)) ((k : Int))]
  omega

theorem iterProduct_mem {ls : List (List Int)} {c : List Int} (h : c ∈ iterProduct ls) :
    c.length = ls.length ∧ ∀ j, j < ls.length → c.getD j 0 ∈ ls.getD j [] := by
  induction ls generalizing c with
  | nil =>
      simp [iterProduct] at h
      subst h
      exact ⟨rfl, by intro j hj; cases hj⟩
  | cons xs rest ih =>
      simp only [iterProduct, List.mem_flatMap, List.mem_map] at h
      obtain ⟨x, hx, c', hc', rfl⟩ := h
      obtain ⟨hlen, hmem⟩ := ih hc'
      refine ⟨by simp [hlen], ?_⟩
      intro j hj
      cases j with
      | zero => simpa using hx
      | succ k =>
          have : k < rest.length := Nat.lt_of_succ_lt_succ hj
          simpa using hmem k this

theorem centers_to_slice_mem {voxels : List (List Int)} {half : List Nat}
    {s : List NSlice} (h : s ∈ centers_to_slice voxels half) :
    ∃ v ∈ voxels,
      s = (v.zip half).map (fun p => NSlice.mk (p.1 - (p.2 : Int)) (p.1 + (p.2 : Int))) := by
  simp only [centers_to_slice, List.mem_map] at h
  obtain ⟨v, hv, rfl⟩ := h
  exact ⟨v, hv, rfl⟩

theorem center_slice_getD (v : List Int) (half : List Nat) (j : Nat)
    (hj : j < (v.zip half).length) :
    ((v.zip half).map (fun p => NSlice.mk (p.1 - (p.2 : Int)) (p.1 + (p.2 : Int)))).getD j default
      = NSlice.mk (v.getD j 0 - (half.getD j 0 : Int)) (v.getD j 0 + (half.getD j 0 : Int)) := by
  rw [getD_map_of_lt _ _ _ hj ((0 : Int), (0 : Nat))]
  rw [getD_zip_of_lt _ _ _ hj]

theorem errBind {ε α β : Type} (e : ε) (f : α → Except ε β) :
    (Except.error e >>= f) = Except.error e := rfl

theorem okBind {ε α β : Type} (a : α) (f : α → Except ε β) :
    (Except.ok a >>= f) = f a := rfl

theorem mapM_ok_length {α β : Type} {f : α → Except String β} :
    ∀ {l : List α} {out : List β}, l.mapM f = .ok out → out.length = l.length := by
  intro l
  induction l with
  | nil =>
      intro out h
      simp only [List.mapM_nil] at h
      cases h
      rfl
  | cons a l ih =>
      intro out h
      rw [List.mapM_cons] at h
      cases hfa : f a with
      | error e => rw [hfa, errBind] at h; cases h
      | ok b =>
          rw [hfa, okBind] at h
          cases hl : l.mapM f with
          | error e => rw [hl, errBind] at h; cases h
          | ok bs =>
              rw [hl, okBind] at h
              cases h
              simp [ih hl]

theorem mapM_ok_getD {α β : Type} {f : α → Except String β} :
    ∀ {l : List α} {out : List β}, l.mapM f = .ok out →
      ∀ j, j < l.length → ∀ (da : α) (db : β),
        f (l.getD j da) = .ok (out.getD j db) := by
  intro l
  induction l with
  | nil => intro out _ j hj; cases hj
  | cons a l ih =>
      intro out h j hj da db
      rw [List.mapM_cons] at h
      cases hfa : f a with
      | error e => rw [hfa, errBind] at h; cases h
      | ok b =>
          rw [hfa, okBind] at h
          cases hl : l.mapM f with
          | error e => rw [hl, errBind] at h; cases h
          | ok bs =>
              rw [hl, okBind] at h
              cases h
              cases j with
              | zero => simpa using hfa
              | succ k =>
                  have : k < l.length := Nat.lt_of_succ_lt_succ hj
                  simpa using ih hl k this da db

theorem mapM_error_of_mem {α β : Type} {f : α → Except String β} :
    ∀ {l : List α} {x : α}, x ∈ l → (∀ y, f x ≠ .ok y) →
      ∃ e, l.mapM f = .error e := by
  intro l
  induction l with
  | nil => intro x hx; cases hx
  | cons a l ih =>
      intro x hx hne
      rw [List.mapM_cons]
      cases hfa : f a with
      | error e => exact ⟨e, by rw [errBind]⟩
      | ok b =>
          rw [okBind]
          rcases List.mem_cons.mp hx with rfl | hmem
          · exact absurd hfa (hne b)
          · obtain ⟨e, he⟩ := ih hmem hne
            exact ⟨e, by rw [he, errBind]⟩

/-! Claim C3: the spec's worked example.  With the mask `cexMask3d`
(shape (10,10,10), single foreground voxel at (5,5,5)), patch size 4 and
overlap 0, the exhaustive indexer emits exactly one patch — but it is the
patch of center (3,3,3) (the far-edge sample `max_bb = 5 - 2`), not the patch
of center (5,5,5) the claim demands. -/

/-- C3 counterexample: on the spec's own example input the single emitted
patch slice is `(1:5, 1:5, 1:5)`, which is not the slice of the center
(5,5,5). -/
theorem C3_counterexample :
    get_slices_bb [cexMask3d] [4, 4, 4] 0 false 0 =
      .ok [[[⟨1, 5⟩, ⟨1, 5⟩, ⟨1, 5⟩]]] ∧
    centers_to_slice [[5, 5, 5]] (patchHalf [4, 4, 4]) = [[⟨3, 7⟩, ⟨3, 7⟩, ⟨3, 7⟩]] ∧
    ([[⟨1, 5⟩, ⟨1, 5⟩, ⟨1, 5⟩]] : List (List NSlice)) ≠ [[⟨3, 7⟩, ⟨3, 7⟩, ⟨3, 7⟩]] :=
  ⟨rfl, rfl, by decide⟩

/-- C3 amended: on the (10,10,10) mask with the single foreground voxel
(5,5,5), patch size 4 and overlap 0, `get_slices_bb` produces exactly one
patch center, located at (3,3,3) (the appended far-edge grid sample of the
inverted margin-shrunk bounding box). -/
theorem C3_amended :
    get_slices_bb [cexMask3d] [4, 4, 4] 0 false 0 =
      .ok [centers_to_slice [[3, 3, 3]] (patchHalf [4, 4, 4])] := by
  rfl

/-- C8: a mask without foreground voxels makes both indexers fail with an
explicit error (numpy's empty-reduction `ValueError` surfacing from the
bounding-box computation) instead of returning patch ranges. -/
theorem C8_theorem (masks : List NDArr) (patch_size : List Nat) (overlap : Nat)
    (filtered : Bool) (min_size : Nat) (rperm : Nat → List Nat) (negRatio : ℚ)
    (m : NDArr) (hm : m ∈ masks) (hfg : fgVoxels m = []) :
    (∃ e, get_slices_bb masks patch_size overlap filtered min_size = .error e) ∧
    (∃ e, get_balanced_slices rperm masks patch_size none min_size negRatio = .error e) := by
  have hbb : ∀ y, bbDimRanges m patch_size overlap ≠ .ok y := by
    intro y hy
    unfold bbDimRanges minBB at hy
    rw [hfg] at hy
    cases hy
  have hmin : ∀ y, npMinAx (fgVoxels m) ≠ .ok y := by
    intro y hy
    rw [hfg] at hy
    cases hy
  constructor
  · obtain ⟨e, he⟩ := mapM_error_of_mem (f := fun m2 => bbDimRanges m2 patch_size overlap) hm hbb
    exact ⟨e, by unfold get_slices_bb; dsimp only; rw [he, errBind]⟩
  · obtain ⟨e, he⟩ := mapM_error_of_mem (f := fun m2 => npMinAx (fgVoxels m2)) hm hmin
    exact ⟨e, by unfold get_balanced_slices bbSrcOf; dsimp only; rw [he, errBind]⟩

/-- C8 witness: the all-background mask of shape (3). -/
theorem C8_witness :
    (witMaskZero ∈ [witMaskZero] ∧ fgVoxels witMaskZero = []) ∧
    (∃ e, get_slices_bb [witMaskZero] [2] 0 false 0 = .error e) ∧
    (∃ e, get_balanced_slices idPerm [witMaskZero] [2] none 0 1 = .error e) :=
  ⟨⟨by simp, rfl⟩,
    C8_theorem [witMaskZero] [2] 0 false 0 idPerm 1 witMaskZero (by simp) rfl⟩

/-- C10: `update()` never changes the stored weight vector — in both the
warm-up and the curriculum branch (and on a raised sampling error) the
`weights` field of the state after the call is the one before it; only
`update_weights` rewrites weights. -/
theorem C10_theorem (o : Orac) (s : WSRS) :
    ((update o s).1).weights = s.weights ∧
    ∀ (vals : List ℚ) (idx : List Nat),
      (update_weights s vals idx).weights = scatterAt s.weights idx vals := by
  constructor
  · unfold update
    dsimp only
    split
    · unfold rateStep
      split <;> rfl
    · cases h : curriculumDraw o { s with step := s.step + 1 } with
      | ok idx =>
          simp only [h]
          unfold rateStep
          split <;> rfl
      | error e => simp only [h]
  · intro vals idx
    rfl

theorem bindOk {ε α β : Type} {x : Except ε α} {f : α → Except ε β} {b : β}
    (h : (x >>= f) = .ok b) : ∃ a, x = .ok a ∧ f a = .ok b := by
  cases x with
  | error e => cases h
  | ok a => exact ⟨a, rfl, h⟩

/-- Unpacking `get_slices_bb ... = .ok out`: the per-case dim ranges exist and
every emitted slice comes from a center of their product grid. -/
theorem get_slices_bb_ok {masks : List NDArr} {patch_size : List Nat}
    {overlap : Nat} {filtered : Bool} {min_size : Nat}
    {out : List (List (List NSlice))}
    (h : get_slices_bb masks patch_size overlap filtered min_size = .ok out) :
    out.length = masks.length ∧
    ∀ j, j < masks.length →
      ∃ dr, bbDimRanges (masks.getD j default) patch_size overlap = .ok dr ∧
        ∀ s ∈ out.getD j [], ∃ v ∈ iterProduct dr,
          s = (v.zip (patchHalf patch_size)).map
            (fun p => NSlice.mk (p.1 - (p.2 : Int)) (p.1 + (p.2 : Int))) := by
  unfold get_slices_bb at h
  obtain ⟨drs, hdrs, h2⟩ := bindOk h
  have hlen : drs.length = masks.length := mapM_ok_length hdrs
  have hout : out.length = masks.length ∧
      ∀ j, j < masks.length → ∀ s ∈ out.getD j [],
        s ∈ centers_to_slice (iterProduct (drs.getD j [])) (patchHalf patch_size) := by
    by_cases hf : filtered = true
    · subst hf
      simp only [if_true] at h2
      cases h2
      constructor
      · simp [List.length_zip, hlen]
      · intro j hj s hs
        have hjz : j < ((drs.map (fun dr =>
            centers_to_slice (iterProduct dr) (patchHalf patch_size))).zip masks).length := by
          simp [List.length_zip, hlen]
          omega
        rw [getD_map_of_lt _ _ _ hjz (([] : List (List NSlice)), (default : NDArr))] at hs
        rw [getD_zip_of_lt _ _ _ hjz [] default] at hs
        unfold filter_size at hs
        have hs2 := List.mem_filter.mp hs
        have hjd : j < drs.length := by omega
        rw [getD_map_of_lt _ _ _ hjd []] at hs2
        exact hs2.1
    · have hf2 : filtered = false := by
        cases filtered
        · rfl
        · exact absurd rfl hf
      subst hf2
      simp only [Bool.false_eq_true, if_false] at h2
      cases h2
      constructor
      · simp [hlen]
      · intro j hj s hs
        have hjd : j < drs.length := by omega
        rw [getD_map_of_lt _ _ _ hjd []] at hs
        exact hs
  refine ⟨hout.1, ?_⟩
  intro j hj
  refine ⟨drs.getD j [], ?_, ?_⟩
  · exact mapM_ok_getD hdrs j (by omega) default []
  · intro s hs
    exact centers_to_slice_mem (hout.2 j hj s hs)

/-- Unpacking `bbDimRanges`: the bounding-box extremes exist and each
per-dimension range is the `np.arange` grid with the far edge appended. -/
theorem bbDimRanges_ok {m : NDArr} {patch_size : List Nat} {overlap : Nat}
    {dr : List (List Int)}
    (h : bbDimRanges m patch_size overlap = .ok dr) :
    ∃ mins maxs,
      npMinAx (fgVoxels m) = .ok mins ∧
      npMaxAx (fgVoxels m) = .ok maxs ∧
      dr.length = min mins.length (min maxs.length patch_size.length) ∧
      ∀ k, k < dr.length →
        dr.getD k [] =
          npArange ((mins.getD k 0 : Int) + ((patch_size.getD k 0 / 2 : Nat) : Int))
              ((maxs.getD k 0 : Int) - ((patch_size.getD k 0 / 2 : Nat) : Int))
              (max (patch_size.getD k 0 - overlap) 1)
            ++ [(maxs.getD k 0 : Int) - ((patch_size.getD k 0 / 2 : Nat) : Int)] := by
  unfold bbDimRanges at h
  obtain ⟨mn, hmn, h2⟩ := bindOk h
  obtain ⟨mx, hmx, h3⟩ := bindOk h2
  unfold minBB at hmn
  unfold maxBB at hmx
  cases hmins : npMinAx (fgVoxels m) with
  | error e => rw [hmins] at hmn; cases hmn
  | ok mins =>
  cases hmaxs : npMaxAx (fgVoxels m) with
  | error e => rw [hmaxs] at hmx; cases hmx
  | ok maxs =>
  rw [hmins] at hmn
  rw [hmaxs] at hmx
  simp only [Except.map, Except.ok.injEq] at hmn hmx
  cases h3
  subst hmn hmx
  refine ⟨mins, maxs, rfl, rfl, ?_, ?_⟩
  · simp [List.length_zip, patchHalf, bbSteps]
  · intro k hk
    have hkz : k < (((mins.zip (patchHalf patch_size)).map
        (fun p => (p.1 : Int) + (p.2 : Int))).zip
          (((maxs.zip (patchHalf patch_size)).map
            (fun p => (p.1 : Int) - (p.2 : Int))).zip
              (bbSteps patch_size overlap))).length := by
      simpa using hk
    have hklen := hkz
    simp only [List.length_zip, List.length_map, patchHalf, bbSteps] at hklen
    have hk3 : k < (mins.zip (patchHalf patch_size)).length := by
      simp only [List.length_zip, List.length_map, patchHalf]
      omega
    have hk4 : k < (maxs.zip (patchHalf patch_size)).length := by
      simp only [List.length_zip, List.length_map, patchHalf]
      omega
    have hk2 : k < (((maxs.zip (patchHalf patch_size)).map
        (fun p => (p.1 : Int) - (p.2 : Int))).zip (bbSteps patch_size overlap)).length := by
      simp only [List.length_zip, List.length_map, patchHalf, bbSteps]
      omega
    have hk5 : k < patch_size.length := by
      simp only [List.length_zip, List.length_map, patchHalf] at hk3
      omega
    rw [getD_map_of_lt _ _ _ hkz ((0 : Int), ((0 : Int), (1 : Nat)))]
    rw [getD_zip_of_lt _ _ _ hkz 0 ((0 : Int), (1 : Nat))]
    rw [getD_zip_of_lt _ _ _ hk2 0 1]
    rw [getD_map_of_lt _ _ _ hk3 ((0 : Nat), (0 : Nat))]
    rw [getD_map_of_lt _ _ _ hk4 ((0 : Nat), (0 : Nat))]
    rw [getD_zip_of_lt _ _ _ hk3 0 0]
    rw [getD_zip_of_lt _ _ _ hk4 0 0]
    have hhalf : (patchHalf patch_size).getD k 0 = patch_size.getD k 0 / 2 :=
      getD_map_of_lt (fun p => p / 2) patch_size k hk5 0 0
    have hsteps : (bbSteps patch_size overlap).getD k 1 =
        max (patch_size.getD k 0 - overlap) 1 := by
      have := getD_map_of_lt (fun p => max (p - overlap) 1) patch_size k hk5 0 1
      simpa [bbSteps] using this
    rw [hhalf, hsteps]

/-- C7: for every list of masks the exhaustive indexer enumerates, per case
and per dimension, the centers `min_bb + k*step` (step `max(patch_len -
overlap, 1)`) below the far edge `max_bb`, always appending the far edge
itself; every emitted patch slice is centered on the resulting product grid. -/
theorem C7_theorem (masks : List NDArr) (patch_size : List Nat) (overlap : Nat)
    (filtered : Bool) (min_size : Nat) (out : List (List (List NSlice)))
    (h : get_slices_bb masks patch_size overlap filtered min_size = .ok out) :
    ∀ j, j < masks.length →
      ∃ dr mins maxs,
        bbDimRanges (masks.getD j default) patch_size overlap = .ok dr ∧
        npMinAx (fgVoxels (masks.getD j default)) = .ok mins ∧
        npMaxAx (fgVoxels (masks.getD j default)) = .ok maxs ∧
        (∀ s ∈ out.getD j [], ∃ v ∈ iterProduct dr,
          s = (v.zip (patchHalf patch_size)).map
            (fun p => NSlice.mk (p.1 - (p.2 : Int)) (p.1 + (p.2 : Int)))) ∧
        ∀ k, k < dr.length →
          ((maxs.getD k 0 : Int) - ((patch_size.getD k 0 / 2 : Nat) : Int)) ∈ dr.getD k [] ∧
          ∀ x ∈ dr.getD k [],
            x = (maxs.getD k 0 : Int) - ((patch_size.getD k 0 / 2 : Nat) : Int) ∨
            ((mins.getD k 0 : Int) + ((patch_size.getD k 0 / 2 : Nat) : Int) ≤ x ∧
             x < (maxs.getD k 0 : Int) - ((patch_size.getD k 0 / 2 : Nat) : Int) ∧
             ∃ i : Nat, x = (mins.getD k 0 : Int) + ((patch_size.getD k 0 / 2 : Nat) : Int) +
               ((max (patch_size.getD k 0 - overlap) 1 : Nat) : Int) * (i : Int)) := by
  intro j hj
  obtain ⟨hlen, hall⟩ := get_slices_bb_ok h
  obtain ⟨dr, hdr, hslices⟩ := hall j hj
  obtain ⟨mins, maxs, hmins, hmaxs, hdrlen, hranges⟩ := bbDimRanges_ok hdr
  refine ⟨dr, mins, maxs, hdr, hmins, hmaxs, hslices, ?_⟩
  intro k hk
  have hr := hranges k hk
  constructor
  · rw [hr]
    exact List.mem_append_right _ (by simp)
  · intro x hx
    rw [hr] at hx
    rcases List.mem_append.mp hx with hgrid | hedge
    · right
      have := npArange_mem (le_max_right _ 1) hgrid
      exact this
    · left
      simpa using hedge

/-- C7 witness: the 1-d mask `witMaskMid` (foreground 1..3, patch size 2,
overlap 0): `min_bb = 2`, `max_bb = 2`, the grid `np.arange(2, 2, 2)` is empty
and the far edge 2 is appended, so the single emitted slice is (1:3). -/
theorem C7_witness :
    (get_slices_bb [witMaskMid] [2] 0 false 0 = .ok [[[⟨1, 3⟩]]]) ∧
    (∀ j, j < [witMaskMid].length →
      ∃ dr mins maxs,
        bbDimRanges ([witMaskMid].getD j default) [2] 0 = .ok dr ∧
        npMinAx (fgVoxels ([witMaskMid].getD j default)) = .ok mins ∧
        npMaxAx (fgVoxels ([witMaskMid].getD j default)) = .ok maxs ∧
        (∀ s ∈ [[[(⟨1, 3⟩ : NSlice)]]].getD j [], ∃ v ∈ iterProduct dr,
          s = (v.zip (patchHalf [2])).map
            (fun p => NSlice.mk (p.1 - (p.2 : Int)) (p.1 + (p.2 : Int)))) ∧
        ∀ k, k < dr.length →
          ((maxs.getD k 0 : Int) - (([2].getD k 0 / 2 : Nat) : Int)) ∈ dr.getD k [] ∧
          ∀ x ∈ dr.getD k [],
            x = (maxs.getD k 0 : Int) - (([2].getD k 0 / 2 : Nat) : Int) ∨
            ((mins.getD k 0 : Int) + (([2].getD k 0 / 2 : Nat) : Int) ≤ x ∧
             x < (maxs.getD k 0 : Int) - (([2].getD k 0 / 2 : Nat) : Int) ∧
             ∃ i : Nat, x = (mins.getD k 0 : Int) + (([2].getD k 0 / 2 : Nat) : Int) +
               ((max ([2].getD k 0 - 0) 1 : Nat) : Int) * (i : Int))) :=
  ⟨rfl, C7_theorem [witMaskMid] [2] 0 false 0 [[[⟨1, 3⟩]]] rfl⟩

theorem dimLenOk_of_center (v : List Int) (ps : List Nat) :
    dimLenOk ps ((v.zip (patchHalf ps)).map
      (fun p => NSlice.mk (p.1 - (p.2 : Int)) (p.1 + (p.2 : Int)))) := by
  intro j hj
  have hjz : j < (v.zip (patchHalf ps)).length := by simpa using hj
  rw [center_slice_getD _ _ _ hjz]
  have hjp : j < ps.length := by
    simp only [List.length_zip, List.length_map, patchHalf] at hjz
    omega
  have hhalf : (patchHalf ps).getD j 0 = ps.getD j 0 / 2 :=
    getD_map_of_lt (fun p => p / 2) ps j hjp 0 0
  rw [hhalf]
  push_cast
  ring

theorem inBounds_of_center (v : List Int) (half sh : List Nat)
    (hb : ∀ k, k < (v.zip half).length →
      ((half.getD k 0 : Nat) : Int) ≤ v.getD k 0 ∧
      v.getD k 0 + ((half.getD k 0 : Nat) : Int) ≤ ((sh.getD k 0 : Nat) : Int)) :
    sliceInBounds sh ((v.zip half).map
      (fun p => NSlice.mk (p.1 - (p.2 : Int)) (p.1 + (p.2 : Int)))) := by
  intro j hj
  have hjz : j < (v.zip half).length := by simpa using hj
  rw [center_slice_getD _ _ _ hjz]
  obtain ⟨h1, h2⟩ := hb j hjz
  constructor
  · show (0 : Int) ≤ v.getD j 0 - ((half.getD j 0 : Nat) : Int)
    omega
  · show v.getD j 0 + ((half.getD j 0 : Nat) : Int) ≤ ((sh.getD j 0 : Nat) : Int)
    exact h2

theorem legalB_bounds {sh mins maxs half : List Nat} {c : List Nat}
    (hleg : legalB sh mins maxs half c = true)
    (hminlen : sh.length ≤ mins.length) (hmaxlen : sh.length ≤ maxs.length)
    (k : Nat) (hk1 : k < sh.length) (hk2 : k < half.length) :
    half.getD k 0 ≤ c.getD k 0 ∧
    ((c.getD k 0 : Nat) : Int) + ((half.getD k 0 : Nat) : Int) ≤ ((sh.getD k 0 : Nat) : Int) := by
  have hkc : k < legalCondCount sh mins maxs half := by
    unfold legalCondCount
    omega
  have hmem : k ∈ List.range (legalCondCount sh mins maxs half) := List.mem_range.mpr hkc
  have := List.all_eq_true.mp hleg k hmem
  have hcond := of_decide_eq_true this
  obtain ⟨hlo, hhi⟩ := hcond
  constructor
  · omega
  · have := le_min_iff.mp hhi
    omega

theorem slice_of_legal_voxel {sh mins maxs ps : List Nat} {c : List Nat}
    (hleg : legalB sh mins maxs (patchHalf ps) c = true)
    (hclen : c.length = sh.length)
    (hminlen : sh.length ≤ mins.length) (hmaxlen : sh.length ≤ maxs.length) :
    dimLenOk ps (((coordInt c).zip (patchHalf ps)).map
      (fun p => NSlice.mk (p.1 - (p.2 : Int)) (p.1 + (p.2 : Int)))) ∧
    sliceInBounds sh (((coordInt c).zip (patchHalf ps)).map
      (fun p => NSlice.mk (p.1 - (p.2 : Int)) (p.1 + (p.2 : Int)))) := by
  constructor
  · exact dimLenOk_of_center (coordInt c) ps
  · apply inBounds_of_center
    intro k hk
    have hcl : (coordInt c).length = c.length := by
      unfold coordInt
      simp
    have hklen : k < min (coordInt c).length (patchHalf ps).length := by
      simpa [List.length_zip] using hk
    have hk1 : k < sh.length := by omega
    have hk2 : k < (patchHalf ps).length := by omega
    obtain ⟨h1, h2⟩ := legalB_bounds hleg hminlen hmaxlen k hk1 hk2
    have hkcl : k < c.length := by omega
    have hv : (coordInt c).getD k 0 = ((c.getD k 0 : Nat) : Int) := by
      unfold coordInt
      exact getD_map_of_lt Int.ofNat c k hkcl 0 0
    rw [hv]
    constructor
    · exact_mod_cast h1
    · exact h2

/-- Every slice the exhaustive indexer emits has per-dimension length
`2 * (patch_size // 2)`, and lies inside the mask's bounds as soon as every
per-dimension maximum foreground coordinate is at least `2 * (patch_size // 2)`. -/
theorem bb_slice_props {masks : List NDArr} {patch_size : List Nat}
    {overlap : Nat} {filtered : Bool} {min_size : Nat}
    {out : List (List (List NSlice))}
    (h : get_slices_bb masks patch_size overlap filtered min_size = .ok out)
    (j : Nat) (hj : j < masks.length) (s : List NSlice) (hs : s ∈ out.getD j []) :
    dimLenOk patch_size s ∧
    ∀ maxs, npMaxAx (fgVoxels (masks.getD j default)) = .ok maxs →
      (∀ k, k < maxs.length → 2 * (patch_size.getD k 0 / 2) ≤ maxs.getD k 0) →
      sliceInBounds (masks.getD j default).shape s := by
  obtain ⟨hlen, hall⟩ := get_slices_bb_ok h
  obtain ⟨dr, hdr, hslices⟩ := hall j hj
  obtain ⟨v, hv, rfl⟩ := hslices s hs
  refine ⟨dimLenOk_of_center v patch_size, ?_⟩
  intro maxs hmaxs hbig
  obtain ⟨mins, maxs', hmins, hmaxs', hdrlen, hranges⟩ := bbDimRanges_ok hdr
  have hmaxeq : maxs = maxs' := by
    rw [hmaxs'] at hmaxs
    injection hmaxs with h2
    exact h2.symm
  subst hmaxeq
  obtain ⟨hvlen, hvmem⟩ := iterProduct_mem hv
  have hcoordlen : ∀ c ∈ fgVoxels (masks.getD j default),
      c.length = (masks.getD j default).shape.length :=
    fun c hc => (allCoords_mem (mem_fgVoxels.mp hc).1).1
  have hmaxslen : maxs.length = (masks.getD j default).shape.length :=
    npMaxAx_ok_length hmaxs hcoordlen
  apply inBounds_of_center
  intro k hk
  have hkz : k < min v.length (patchHalf patch_size).length := by
    simpa [List.length_zip] using hk
  have hkdr : k < dr.length := by omega
  have hr := hranges k hkdr
  have hvk := hvmem k hkdr
  rw [hr] at hvk
  have hkps : k < patch_size.length := by
    simp only [patchHalf, List.length_map] at hkz
    omega
  have hhalf : (patchHalf patch_size).getD k 0 = patch_size.getD k 0 / 2 :=
    getD_map_of_lt (fun p => p / 2) patch_size k hkps 0 0
  rw [hhalf]
  have hkmx : k < maxs.length := by omega
  have hkd : k < (masks.getD j default).shape.length := by omega
  obtain ⟨src, hsrc, hsrceq⟩ := npMaxAx_ok_mem hmaxs hcoordlen k hkd
  have hsrcmem := mem_fgVoxels.mp hsrc
  have hsrclt := (allCoords_mem hsrcmem.1).2 k hkd
  have hmaxlt : maxs.getD k 0 < (masks.getD j default).shape.getD k 0 := by
    rw [hsrceq]
    exact hsrclt
  have hml : ((maxs.getD k 0 : Nat) : Int) <
      (((masks.getD j default).shape.getD k 0 : Nat) : Int) := by
    exact_mod_cast hmaxlt
  rcases List.mem_append.mp hvk with hgrid | hedge
  · obtain ⟨hlo, hhi, -⟩ := npArange_mem (le_max_right _ 1) hgrid
    have hnn : (0 : Int) ≤ ((mins.getD k 0 : Nat) : Int) := Int.natCast_nonneg _
    constructor
    · omega
    · omega
  · have hedge2 : v.getD k 0 =
        ((maxs.getD k 0 : Nat) : Int) - ((patch_size.getD k 0 / 2 : Nat) : Int) := by
      simpa using hedge
    have hb := hbig k hkmx
    have hbi : ((2 * (patch_size.getD k 0 / 2) : Nat) : Int) ≤ ((maxs.getD k 0 : Nat) : Int) := by
      exact_mod_cast hb
    constructor
    · push_cast at hbi ⊢
      omega
    · omega

/-- Unpacking `get_balanced_slices ... = .ok out`. -/
theorem get_balanced_slices_ok {rperm : Nat → List Nat} {masks : List NDArr}
    {patch_size : List Nat} {rois : Option (List NDArr)} {min_size : Nat}
    {negRatio : ℚ} {out : List (List (List NSlice))}
    (h : get_balanced_slices rperm masks patch_size rois min_size negRatio = .ok out) :
    ∃ (m0 : NDArr) (tl : List NDArr) (minbb maxbb : List (List Nat)) (legals : List NDArr),
      masks = m0 :: tl ∧
      (bbSrcOf masks rois).mapM (fun m => npMinAx (fgVoxels m)) = .ok minbb ∧
      (bbSrcOf masks rois).mapM (fun m => npMaxAx (fgVoxels m)) = .ok maxbb ∧
      (minbb.zip maxbb).mapM
        (fun p => legalArr m0.shape p.1 p.2 (patchHalf patch_size)) = .ok legals ∧
      out = balancedAssemble rperm masks (patchHalf patch_size) legals
              (bckMasksOf masks rois) min_size negRatio := by
  unfold get_balanced_slices at h
  dsimp only at h
  obtain ⟨minbb, h1, hb⟩ := bindOk h
  clear h
  obtain ⟨maxbb, h2, hc⟩ := bindOk hb
  clear hb
  split at hc
  · rw [errBind] at hc
    cases hc
  · rename_i m0 tl
    rw [show ((pure m0.shape : Except String (List Nat))) = Except.ok m0.shape from rfl,
      okBind] at hc
    obtain ⟨legals, h3, hd⟩ := bindOk hc
    have h4 : balancedAssemble rperm (m0 :: tl) (patchHalf patch_size) legals
        (bckMasksOf (m0 :: tl) rois) min_size negRatio = out := by
      injection hd
    exact ⟨m0, tl, minbb, maxbb, legals, rfl, h1, h2, h3, h4.symm⟩

/-- The per-case count of `balancedAssemble` equals the mask count when the
auxiliary lists line up. -/
theorem balancedAssemble_length {rperm : Nat → List Nat} {masks : List NDArr}
    {half : List Nat} {legals bckMasks : List NDArr} {min_size : Nat} {negRatio : ℚ}
    (hleg : legals.length = masks.length) (hbck : bckMasks.length = masks.length) :
    (balancedAssemble rperm masks half legals bckMasks min_size negRatio).length
      = masks.length := by
  unfold balancedAssemble
  split <;> simp [List.length_zip, hleg, hbck]

theorem getD_mem_of_lt {α : Type} (l : List α) (n : Nat) (h : n < l.length) (d : α) :
    l.getD n d ∈ l := by
  rw [List.getD_eq_getElem?_getD, List.getElem?_eq_getElem h]
  exact List.getElem_mem h

/-- Every slice of a `balancedAssemble` case is empty or is the patch of a
voxel of the legal-filtered lesion mask or of the legal-filtered background
mask of that case. -/
theorem balancedAssemble_mem {rperm : Nat → List Nat} {masks : List NDArr}
    {half : List Nat} {legals bckMasks : List NDArr} {min_size : Nat} {negRatio : ℚ}
    (hleg : legals.length = masks.length) (hbck : bckMasks.length = masks.length)
    {j : Nat} (hj : j < masks.length) {s : List NSlice}
    (hs : s ∈ (balancedAssemble rperm masks half legals bckMasks min_size negRatio).getD j []) :
    s = [] ∨ ∃ c : List Nat,
      (c ∈ get_mask_voxels (npLogicalAnd (masks.getD j default) (legals.getD j default)) ∨
       c ∈ get_mask_voxels (npLogicalAnd (bckMasks.getD j default) (legals.getD j default))) ∧
      s = ((coordInt c).zip half).map
        (fun p => NSlice.mk (p.1 - (p.2 : Int)) (p.1 + (p.2 : Int))) := by
  have hfm : ((masks.zip legals).map (fun p => npLogicalAnd p.1 p.2)).getD j default
      = npLogicalAnd (masks.getD j default) (legals.getD j default) := by
    have hjz : j < (masks.zip legals).length := by
      rw [List.length_zip]
      omega
    rw [getD_map_of_lt _ _ _ hjz ((default : NDArr), (default : NDArr))]
    rw [getD_zip_of_lt _ _ _ hjz]
  have hfb : ((bckMasks.zip legals).map
        (fun (p : NDArr × NDArr) => npLogicalAnd p.1 p.2)).getD j default
      = npLogicalAnd (bckMasks.getD j default) (legals.getD j default) := by
    have hjz : j < (bckMasks.zip legals).length := by
      rw [List.length_zip]
      omega
    rw [getD_map_of_lt _ _ _ hjz ((default : NDArr), (default : NDArr))]
    rw [getD_zip_of_lt _ _ _ hjz]
  have hlesvox : (((masks.zip legals).map (fun p => npLogicalAnd p.1 p.2)).map
        get_mask_voxels).getD j []
      = get_mask_voxels (npLogicalAnd (masks.getD j default) (legals.getD j default)) := by
    have hjm : j < ((masks.zip legals).map (fun p => npLogicalAnd p.1 p.2)).length := by
      simp [List.length_zip]
      omega
    rw [getD_map_of_lt _ _ _ hjm default, hfm]
  have hbckvox : (((bckMasks.zip legals).map
        (fun (p : NDArr × NDArr) => npLogicalAnd p.1 p.2)).map get_mask_voxels).getD j []
      = get_mask_voxels (npLogicalAnd (bckMasks.getD j default) (legals.getD j default)) := by
    have hjm : j < ((bckMasks.zip legals).map
        (fun (p : NDArr × NDArr) => npLogicalAnd p.1 p.2)).length := by
      simp [List.length_zip]
      omega
    rw [getD_map_of_lt _ _ _ hjm default, hfb]
  have hbA : balancedAssemble rperm masks half legals bckMasks min_size negRatio
      = (if 0 < min_size then ((((((masks.zip legals).map (fun p => npLogicalAnd p.1 p.2)).map get_mask_voxels).map (fun vox => centers_to_slice (vox.map coordInt) half)).zip ((((((bckMasks.zip legals).map (fun (p : NDArr × NDArr) => npLogicalAnd p.1 p.2)).map get_mask_voxels).map (fun vox => centers_to_slice (vox.map coordInt) half)).zip masks).map (fun p => filter_size p.1 p.2 min_size))).map (fun p => p.1 ++ (pyTake (rperm p.2.length) (pyInt (negRatio * (p.1.length : ℚ)))).map (fun idx => p.2.getD idx []))) else ((((((masks.zip legals).map (fun p => npLogicalAnd p.1 p.2)).map get_mask_voxels).map (fun vox => centers_to_slice (vox.map coordInt) half)).zip (((((masks.zip legals).map (fun p => npLogicalAnd p.1 p.2)).map get_mask_voxels).zip (((bckMasks.zip legals).map (fun (p : NDArr × NDArr) => npLogicalAnd p.1 p.2)).map get_mask_voxels)).map (fun p => centers_to_slice ((pyTake (rperm p.2.length) (pyInt (negRatio * (p.1.length : ℚ)))).map (fun idx => coordInt (p.2.getD idx []))) half))).map (fun p => p.1 ++ p.2))) := rfl
  rw [hbA] at hs
  have hLVj : (((masks.zip legals).map (fun p => npLogicalAnd p.1 p.2)).map get_mask_voxels).getD j [] =
      get_mask_voxels (npLogicalAnd (masks.getD j default) (legals.getD j default)) := by
    rw [getD_map_of_lt _ _ _ (by simp only [List.length_map, List.length_zip]; omega)
      (default : NDArr)]
    rw [hfm]
  have hBVj : (((bckMasks.zip legals).map (fun (p : NDArr × NDArr) => npLogicalAnd p.1 p.2)).map get_mask_voxels).getD j [] =
      get_mask_voxels (npLogicalAnd (bckMasks.getD j default) (legals.getD j default)) := by
    rw [getD_map_of_lt _ _ _ (by simp only [List.length_map, List.length_zip]; omega)
      (default : NDArr)]
    rw [hfb]
  have hLSj : ((((masks.zip legals).map (fun p => npLogicalAnd p.1 p.2)).map get_mask_voxels).map (fun vox => centers_to_slice (vox.map coordInt) half)).getD j [] =
      centers_to_slice
        ((get_mask_voxels (npLogicalAnd (masks.getD j default) (legals.getD j default))).map
          coordInt) half := by
    rw [getD_map_of_lt _ _ _ (by simp only [List.length_map, List.length_zip]; omega)
      ([] : List (List Nat))]
    rw [hLVj]
  by_cases hms : 0 < min_size
  · rw [if_pos hms] at hs
    rw [getD_map_of_lt _ _ _ (by simp only [List.length_map, List.length_zip]; omega)
      (([] : List (List NSlice)), ([] : List (List NSlice)))] at hs
    rw [getD_zip_of_lt _ _ _ (by simp only [List.length_map, List.length_zip]; omega)
      ([] : List (List NSlice)) ([] : List (List NSlice))] at hs
    rcases List.mem_append.mp hs with hs1 | hs2
    · rw [hLSj] at hs1
      obtain ⟨v, hv, rfl⟩ := centers_to_slice_mem hs1
      obtain ⟨c, hc, rfl⟩ := List.mem_map.mp hv
      exact Or.inr ⟨c, Or.inl hc, rfl⟩
    · obtain ⟨idx, hidx, rfl⟩ := List.mem_map.mp hs2
      have hFSj : ((((((bckMasks.zip legals).map (fun (p : NDArr × NDArr) => npLogicalAnd p.1 p.2)).map get_mask_voxels).map (fun vox => centers_to_slice (vox.map coordInt) half)).zip masks).map (fun p => filter_size p.1 p.2 min_size)).getD j [] =
          filter_size
            (centers_to_slice
              ((get_mask_voxels
                (npLogicalAnd (bckMasks.getD j default) (legals.getD j default))).map coordInt)
              half)
            (masks.getD j default) min_size := by
        rw [getD_map_of_lt _ _ _ (by simp only [List.length_map, List.length_zip]; omega)
          (([] : List (List NSlice)), (default : NDArr))]
        rw [getD_zip_of_lt _ _ _ (by simp only [List.length_map, List.length_zip]; omega)
          ([] : List (List NSlice)) (default : NDArr)]
        rw [getD_map_of_lt _ _ _ (by simp only [List.length_map, List.length_zip]; omega)
          ([] : List (List Nat))]
        rw [hBVj]
      rw [hFSj]
      by_cases hin : idx < (filter_size
          (centers_to_slice
            ((get_mask_voxels
              (npLogicalAnd (bckMasks.getD j default) (legals.getD j default))).map coordInt)
            half)
          (masks.getD j default) min_size).length
      · have hmem := getD_mem_of_lt _ _ hin ([] : List NSlice)
        unfold filter_size at hmem
        have hmem2 := (List.mem_filter.mp hmem).1
        obtain ⟨v, hv, hveq⟩ := centers_to_slice_mem hmem2
        obtain ⟨c, hc, rfl⟩ := List.mem_map.mp hv
        exact Or.inr ⟨c, Or.inr hc, hveq⟩
      · left
        rw [List.getD_eq_default _ _ (le_of_not_lt hin)]
  · rw [if_neg hms] at hs
    rw [getD_map_of_lt _ _ _ (by simp only [List.length_map, List.length_zip]; omega)
      (([] : List (List NSlice)), ([] : List (List NSlice)))] at hs
    rw [getD_zip_of_lt _ _ _ (by simp only [List.length_map, List.length_zip]; omega)
      ([] : List (List NSlice)) ([] : List (List NSlice))] at hs
    rcases List.mem_append.mp hs with hs1 | hs2
    · rw [hLSj] at hs1
      obtain ⟨v, hv, rfl⟩ := centers_to_slice_mem hs1
      obtain ⟨c, hc, rfl⟩ := List.mem_map.mp hv
      exact Or.inr ⟨c, Or.inl hc, rfl⟩
    · have hFS2j : (((((masks.zip legals).map (fun p => npLogicalAnd p.1 p.2)).map get_mask_voxels).zip (((bckMasks.zip legals).map (fun (p : NDArr × NDArr) => npLogicalAnd p.1 p.2)).map get_mask_voxels)).map (fun p => centers_to_slice ((pyTake (rperm p.2.length) (pyInt (negRatio * (p.1.length : ℚ)))).map (fun idx => coordInt (p.2.getD idx []))) half)).getD j [] =
          centers_to_slice
            ((pyTake (rperm (get_mask_voxels
                (npLogicalAnd (bckMasks.getD j default) (legals.getD j default))).length)
              (pyInt (negRatio * (((get_mask_voxels
                (npLogicalAnd (masks.getD j default) (legals.getD j default))).length : Nat) : ℚ)))).map
              (fun idx => coordInt ((get_mask_voxels
                (npLogicalAnd (bckMasks.getD j default) (legals.getD j default))).getD idx [])))
            half := by
        rw [getD_map_of_lt _ _ _ (by simp only [List.length_map, List.length_zip]; omega)
          (([] : List (List Nat)), ([] : List (List Nat)))]
        rw [getD_zip_of_lt _ _ _ (by simp only [List.length_map, List.length_zip]; omega)
          ([] : List (List Nat)) ([] : List (List Nat))]
        rw [hLVj, hBVj]
      rw [hFS2j] at hs2
      obtain ⟨v, hv, rfl⟩ := centers_to_slice_mem hs2
      obtain ⟨idx, hidx, rfl⟩ := List.mem_map.mp hv
      by_cases hin : idx < (get_mask_voxels
          (npLogicalAnd (bckMasks.getD j default) (legals.getD j default))).length
      · exact Or.inr ⟨_, Or.inr (getD_mem_of_lt _ _ hin []), rfl⟩
      · left
        rw [List.getD_eq_default _ _ (le_of_not_lt hin)]
        rfl

/-- Every slice the balanced sampler emits has per-dimension length
`2 * (patch_size // 2)` and lies inside the common mask shape: the legal-mask
filtering enforces both margins. -/
theorem balanced_slice_props {rperm : Nat → List Nat} {masks : List NDArr}
    {patch_size : List Nat} {rois : Option (List NDArr)} {min_size : Nat}
    {negRatio : ℚ} {out : List (List (List NSlice))} {sh : List Nat}
    (h : get_balanced_slices rperm masks patch_size rois min_size negRatio = .ok out)
    (hsh : ∀ m ∈ masks, m.shape = sh)
    (hroi : ∀ rs, rois = some rs → ∀ r ∈ rs, r.shape.length = sh.length)
    (hroil : ∀ rs, rois = some rs → rs.length = masks.length) :
    ∀ j, j < out.length → ∀ s ∈ out.getD j [],
      dimLenOk patch_size s ∧ sliceInBounds sh s := by
  obtain ⟨m0, tl, minbb, maxbb, legals, rfl, hmin, hmax, hlegs, rfl⟩ :=
    get_balanced_slices_ok h
  have hsrclen : (bbSrcOf (m0 :: tl) rois).length = (m0 :: tl).length := by
    cases rois with
    | none => rfl
    | some rs => exact hroil rs rfl
  have hminlen : minbb.length = (m0 :: tl).length := by
    rw [mapM_ok_length hmin, hsrclen]
  have hmaxlen : maxbb.length = (m0 :: tl).length := by
    rw [mapM_ok_length hmax, hsrclen]
  have hleglen : legals.length = (m0 :: tl).length := by
    rw [mapM_ok_length hlegs, List.length_zip]
    omega
  have hbcklen : (bckMasksOf (m0 :: tl) rois).length = (m0 :: tl).length := by
    cases rois with
    | none => simp [bckMasksOf]
    | some rs =>
        simp only [bckMasksOf, List.length_map, List.length_zip]
        rw [hroil rs rfl]
        simp
  intro j hj s hs
  have hjm : j < (m0 :: tl).length := by
    rw [balancedAssemble_length hleglen hbcklen] at hj
    exact hj
  -- the legal mask of case j
  have hjz : j < (minbb.zip maxbb).length := by
    rw [List.length_zip]
    omega
  have hlegj := mapM_ok_getD hlegs j hjz (([] : List Nat), ([] : List Nat)) default
  rw [getD_zip_of_lt _ _ _ hjz ([] : List Nat) ([] : List Nat)] at hlegj
  dsimp only at hlegj
  unfold legalArr at hlegj
  have hlegj2 : legals.getD j default =
      NDArr.mk m0.shape (fun c2 => if legalB m0.shape (minbb.getD j []) (maxbb.getD j [])
        (patchHalf patch_size) c2 = true then 1 else 0) := by
    by_cases hze : legalCondCount m0.shape (minbb.getD j []) (maxbb.getD j [])
        (patchHalf patch_size) = 0
    · rw [if_pos hze] at hlegj
      cases hlegj
    · rw [if_neg hze] at hlegj
      injection hlegj with hlegj
      exact hlegj.symm
  have hbbsrc := mapM_ok_getD hmin j (by omega) default []
  have hbbsrc2 := mapM_ok_getD hmax j (by omega) default []
  have hsrcshape : ((bbSrcOf (m0 :: tl) rois).getD j default).shape.length = sh.length := by
    cases rois with
    | none =>
        have : (m0 :: tl).getD j default ∈ (m0 :: tl) := getD_mem_of_lt _ _ hjm default
        simp only [bbSrcOf]
        rw [hsh _ this]
    | some rs =>
        have hjr : j < rs.length := by
          rw [hroil rs rfl]
          exact hjm
        exact hroi rs rfl _ (getD_mem_of_lt _ _ hjr default)
  have hfgsrc : ∀ cc ∈ fgVoxels ((bbSrcOf (m0 :: tl) rois).getD j default),
      cc.length = ((bbSrcOf (m0 :: tl) rois).getD j default).shape.length :=
    fun cc hcc => (allCoords_mem (mem_fgVoxels.mp hcc).1).1
  have hminjlen : sh.length ≤ (minbb.getD j []).length := by
    rw [npMinAx_ok_length hbbsrc hfgsrc, hsrcshape]
  have hmaxjlen : sh.length ≤ (maxbb.getD j []).length := by
    rw [npMaxAx_ok_length hbbsrc2 hfgsrc, hsrcshape]
  have hm0sh : m0.shape = sh := hsh m0 (by simp)
  rcases balancedAssemble_mem hleglen hbcklen hjm hs with rfl | ⟨c, hc, rfl⟩
  · constructor
    · intro k hk
      simp at hk
    · intro k hk
      simp at hk
  · have hcprops : legalB m0.shape (minbb.getD j []) (maxbb.getD j [])
        (patchHalf patch_size) c = true ∧ c.length = sh.length := by
      rcases hc with hcl | hcb
      · obtain ⟨hmem, hval⟩ := mem_get_mask_voxels.mp hcl
        have hshape : (npLogicalAnd ((m0 :: tl).getD j default)
            (legals.getD j default)).shape = sh := by
          have : (m0 :: tl).getD j default ∈ (m0 :: tl) := getD_mem_of_lt _ _ hjm default
          simp only [npLogicalAnd]
          exact hsh _ this
        rw [hshape] at hmem
        refine ⟨?_, (allCoords_mem hmem).1⟩
        unfold npLogicalAnd at hval
        simp only at hval
        split at hval
        · rename_i hcond
          have h2 := hcond.2
          rw [hlegj2] at h2
          simp only at h2
          by_contra hfalse
          rw [if_neg hfalse] at h2
          omega
        · omega
      · obtain ⟨hmem, hval⟩ := mem_get_mask_voxels.mp hcb
        have hshape : (npLogicalAnd ((bckMasksOf (m0 :: tl) rois).getD j default)
            (legals.getD j default)).shape = sh := by
          simp only [npLogicalAnd]
          cases rois with
          | none =>
              simp only [bckMasksOf]
              rw [getD_map_of_lt _ _ _ hjm default]
              simp only [npLogicalNot]
              exact hsh _ (getD_mem_of_lt _ _ hjm default)
          | some rs =>
              simp only [bckMasksOf]
              have hjz2 : j < (((m0 :: tl).map npLogicalNot).zip rs).length := by
                simp only [List.length_zip, List.length_map]
                rw [hroil rs rfl]
                simpa using hjm
              rw [getD_map_of_lt _ _ _ hjz2 ((default : NDArr), (default : NDArr))]
              rw [getD_zip_of_lt _ _ _ hjz2 default default]
              simp only [npLogicalAnd]
              rw [getD_map_of_lt _ _ _ hjm default]
              simp only [npLogicalNot]
              exact hsh _ (getD_mem_of_lt _ _ hjm default)
        rw [hshape] at hmem
        refine ⟨?_, (allCoords_mem hmem).1⟩
        unfold npLogicalAnd at hval
        simp only at hval
        split at hval
        · rename_i hcond
          have h2 := hcond.2
          rw [hlegj2] at h2
          simp only at h2
          by_contra hfalse
          rw [if_neg hfalse] at h2
          omega
        · omega
    have hres := slice_of_legal_voxel hcprops.1 (by rw [hcprops.2, hm0sh])
      (by rw [hm0sh]; exact hminjlen)
      (by rw [hm0sh]; exact hmaxjlen)
    rw [hm0sh] at hres
    exact hres

/-- C1 counterexample: the mask of shape (10) whose only foreground voxel is 0,
with patch size 5 and overlap 0, makes `get_slices_bb` emit the single slice
`slice(-4, 0)`: its start is negative (outside the array) and its length is
4, not the configured patch size 5. -/
theorem C1_counterexample :
    fgVoxels cexMaskEdge = [[0]] ∧
    get_slices_bb [cexMaskEdge] [5] 0 false 0 = .ok [[[⟨-4, 0⟩]]] ∧
    ((⟨-4, 0⟩ : NSlice).start < 0 ∧
      (⟨-4, 0⟩ : NSlice).stop - (⟨-4, 0⟩ : NSlice).start ≠ (5 : Int)) :=
  ⟨rfl, rfl, by decide, by decide⟩

/-- C1 amended: every patch slice emitted by the indexers has, per dimension,
length exactly `2 * (patch_size // 2)` (equal to `patch_size` only when it is
even); slices of `get_balanced_slices` always lie within the (common) array
bounds, while slices of `get_slices_bb` lie within bounds provided every
dimension's maximum foreground coordinate is at least `2 * (patch_size // 2)`. -/
theorem C1_theorem :
    (∀ (masks : List NDArr) (patch_size : List Nat) (overlap : Nat) (filtered : Bool)
        (min_size : Nat) (out : List (List (List NSlice))),
      get_slices_bb masks patch_size overlap filtered min_size = .ok out →
      ∀ j, j < masks.length → ∀ s ∈ out.getD j [],
        dimLenOk patch_size s ∧
        ∀ maxs, npMaxAx (fgVoxels (masks.getD j default)) = .ok maxs →
          (∀ k, k < maxs.length → 2 * (patch_size.getD k 0 / 2) ≤ maxs.getD k 0) →
          sliceInBounds (masks.getD j default).shape s) ∧
    (∀ (rperm : Nat → List Nat) (masks : List NDArr) (patch_size : List Nat)
        (rois : Option (List NDArr)) (min_size : Nat) (negRatio : ℚ)
        (out : List (List (List NSlice))) (sh : List Nat),
      get_balanced_slices rperm masks patch_size rois min_size negRatio = .ok out →
      (∀ m ∈ masks, m.shape = sh) →
      (∀ rs, rois = some rs → ∀ r ∈ rs, r.shape.length = sh.length) →
      (∀ rs, rois = some rs → rs.length = masks.length) →
      ∀ j, j < out.length → ∀ s ∈ out.getD j [],
        dimLenOk patch_size s ∧ sliceInBounds sh s) :=
  ⟨fun _ _ _ _ _ _ h j hj s hs => bb_slice_props h j hj s hs,
   fun _ _ _ _ _ _ _ _ h hsh hroi hroil => balanced_slice_props h hsh hroi hroil⟩

theorem pyInt_one_mul (n : Nat) : pyInt ((1 : ℚ) * (n : ℚ)) = (n : Int) := by
  rw [one_mul]
  unfold pyInt
  rw [Rat.num_natCast, Rat.den_natCast]
  simp [Int.tdiv_one]

/-- C1 witness: the exhaustive indexer on `witMaskMid` and the balanced
indexer on `witMaskTwoFg`, with all hypotheses discharged concretely. -/
theorem C1_witness :
    (get_slices_bb [witMaskMid] [2] 0 false 0 = .ok [[[⟨1, 3⟩]]] ∧
     ∀ j, j < [witMaskMid].length → ∀ s ∈ [[[(⟨1, 3⟩ : NSlice)]]].getD j [],
        dimLenOk [2] s ∧
        ∀ maxs, npMaxAx (fgVoxels ([witMaskMid].getD j default)) = .ok maxs →
          (∀ k, k < maxs.length → 2 * ([2].getD k 0 / 2) ≤ maxs.getD k 0) →
          sliceInBounds ([witMaskMid].getD j default).shape s) ∧
    (get_balanced_slices idPerm [witMaskTwoFg] [2] none 0 1 =
        .ok [[[⟨0, 2⟩], [⟨2, 4⟩], [⟨1, 3⟩]]] ∧
     ∀ j, j < [[[(⟨0, 2⟩ : NSlice)], [⟨2, 4⟩], [⟨1, 3⟩]]].length →
       ∀ s ∈ [[[(⟨0, 2⟩ : NSlice)], [⟨2, 4⟩], [⟨1, 3⟩]]].getD j [],
        dimLenOk [2] s ∧ sliceInBounds [5] s) :=
  ⟨⟨rfl, C1_theorem.1 [witMaskMid] [2] 0 false 0 [[[⟨1, 3⟩]]] rfl⟩,
   ⟨by unfold get_balanced_slices balancedAssemble
       simp only [pyInt_one_mul]
       rfl,
    C1_theorem.2 idPerm [witMaskTwoFg] [2] none 0 1
      [[[⟨0, 2⟩], [⟨2, 4⟩], [⟨1, 3⟩]]] [5]
      (by unfold get_balanced_slices balancedAssemble
          simp only [pyInt_one_mul]
          rfl)
      (by intro m hm; rw [List.mem_singleton] at hm; subst hm; rfl)
      (by intro rs hrs; cases hrs)
      (by intro rs hrs; cases hrs)⟩⟩

theorem mem_posIndices {w : List ℚ} {x : Nat} :
    x ∈ posIndices w ↔ x < w.length ∧ 0 < w.getD x 0 := by
  simp [posIndices, List.mem_filter]

theorem posIndices_nodup (w : List ℚ) : (posIndices w).Nodup :=
  (List.nodup_range _).filter _

theorem tunique_nodup (a : List Nat) : (tunique a).Nodup :=
  ((List.perm_insertionSort _ _).nodup_iff).mpr (List.nodup_dedup a)

theorem mem_tunique {a : List Nat} {x : Nat} : x ∈ tunique a ↔ x ∈ a := by
  unfold tunique
  rw [List.mem_insertionSort]
  exact List.mem_dedup

theorem tunique_ne_nil {a : List Nat} (h : a ≠ []) : tunique a ≠ [] := by
  intro hz
  rcases List.exists_mem_of_ne_nil a h with ⟨x, hx⟩
  have : x ∈ tunique a := mem_tunique.mpr hx
  rw [hz] at this
  cases this

theorem zeroAt_length (w : List ℚ) (b : List Nat) : (zeroAt w b).length = w.length := by
  simp [zeroAt]

theorem zeroAt_getD (w : List ℚ) (b : List Nat) (i : Nat) :
    (zeroAt w b).getD i 0 =
      if i < w.length then (if i ∈ b then 0 else w.getD i 0) else 0 := by
  by_cases hi : i < w.length
  · rw [if_pos hi]
    unfold zeroAt
    have hr : i < (List.range w.length).length := by simpa using hi
    rw [getD_map_of_lt _ _ _ hr 0]
    rw [getD_range_of_lt _ _ hi]
  · rw [if_neg hi]
    apply List.getD_eq_default
    rw [zeroAt_length]
    omega

theorem multinomial_ok {rng : Nat → Nat} {off : Nat} {w : List ℚ} {k : Nat}
    {a : List Nat} (h : multinomial rng off w k = .ok a) :
    a.length = k ∧ ∀ x ∈ a, x ∈ posIndices w := by
  unfold multinomial at h
  split at h
  · cases h
  · split at h
    · cases h
    · rename_i hne
      injection h with h
      subst h
      constructor
      · simp
      · intro x hx
        obtain ⟨i2, _, rfl⟩ := List.mem_map.mp hx
        apply getD_mem_of_lt
        have : (posIndices w).length ≠ 0 := hne
        exact Nat.mod_lt _ (by omega)

theorem multinomial_success {rng : Nat → Nat} {off : Nat} {w : List ℚ} {k : Nat}
    (hnn : ∀ x ∈ w, 0 ≤ x) (hpos : 0 < posCount w) :
    multinomial rng off w k =
      .ok ((List.range k).map
        (fun j => (posIndices w).getD (rng (off + j) % (posIndices w).length) 0)) := by
  unfold multinomial
  rw [if_neg, if_neg]
  · unfold posCount at hpos
    omega
  · rw [List.any_eq_true]
    rintro ⟨x, hx, hlt⟩
    have := hnn x hx
    rw [decide_eq_true_eq] at hlt
    linarith

theorem multinomial_zero {rng : Nat → Nat} {off : Nat} {w : List ℚ} {k : Nat}
    (hnn : ∀ x ∈ w, 0 ≤ x) (hz : posCount w = 0) :
    multinomial rng off w k =
      .error "invalid multinomial distribution (sum of probabilities <= 0)" := by
  unfold multinomial
  rw [if_neg, if_pos]
  · exact hz
  · rw [List.any_eq_true]
    rintro ⟨x, hx, hlt⟩
    have := hnn x hx
    rw [decide_eq_true_eq] at hlt
    linarith

theorem posCount_zeroAt {w : List ℚ} {b : List Nat} (hb : b.Nodup)
    (hsub : ∀ x ∈ b, x ∈ posIndices w) :
    posCount (zeroAt w b) = posCount w - b.length := by
  have hchar : posIndices (zeroAt w b) = (posIndices w).filter (fun x => decide (x ∉ b)) := by
    unfold posIndices
    rw [zeroAt_length, List.filter_filter]
    apply List.filter_congr
    intro x hx
    have hxlt : x < w.length := by simpa using hx
    rw [zeroAt_getD, if_pos hxlt]
    by_cases hmem : x ∈ b
    · simp [hmem]
    · simp [hmem]
  unfold posCount
  rw [hchar]
  have hsplit : ((posIndices w).filter (fun x => decide (x ∈ b))).length +
      ((posIndices w).filter (fun x => decide (x ∉ b))).length = (posIndices w).length := by
    have hperm := List.filter_append_perm (fun x => decide (x ∈ b)) (posIndices w)
    have h2 := hperm.length_eq
    rw [List.length_append] at h2
    rw [show (List.filter (fun x => decide (x ∉ b)) (posIndices w))
        = (List.filter (fun x => !decide (x ∈ b)) (posIndices w)) from
      List.filter_congr (by intro x _; simp)]
    exact h2
  have hmemlen : ((posIndices w).filter (fun x => decide (x ∈ b))).length = b.length := by
    have h1 : ((posIndices w).filter (fun x => decide (x ∈ b))).Nodup :=
      (posIndices_nodup w).filter _
    have h2 : ((posIndices w).filter (fun x => decide (x ∈ b))).toFinset = b.toFinset := by
      ext x
      simp only [List.mem_toFinset, List.mem_filter, decide_eq_true_eq]
      constructor
      · rintro ⟨_, hxb⟩
        exact hxb
      · intro hxb
        exact ⟨hsub x hxb, hxb⟩
    have h3 := List.toFinset_card_of_nodup h1
    have h4 := List.toFinset_card_of_nodup hb
    rw [h2, h4] at h3
    omega
  omega

/-- The exact per-case value of `balancedAssemble` in the `min_size = 0`
branch: the lesion slices followed by the randomly selected background
slices. -/
theorem balancedAssemble_min0_getD {rperm : Nat → List Nat} {masks : List NDArr}
    {half : List Nat} {legals bckMasks : List NDArr} {negRatio : ℚ} {j : Nat}
    (hleg : legals.length = masks.length) (hbck : bckMasks.length = masks.length)
    (hj : j < masks.length) :
    (balancedAssemble rperm masks half legals bckMasks 0 negRatio).getD j [] =
      centers_to_slice ((get_mask_voxels (npLogicalAnd (masks.getD j default)
        (legals.getD j default))).map coordInt) half ++
      centers_to_slice
        ((pyTake (rperm (get_mask_voxels (npLogicalAnd (bckMasks.getD j default)
            (legals.getD j default))).length)
          (pyInt (negRatio * (((get_mask_voxels (npLogicalAnd (masks.getD j default)
            (legals.getD j default))).length : Nat) : ℚ)))).map
          (fun idx => coordInt ((get_mask_voxels (npLogicalAnd (bckMasks.getD j default)
            (legals.getD j default))).getD idx []))) half := by
  have hfm : ((masks.zip legals).map (fun p => npLogicalAnd p.1 p.2)).getD j default
      = npLogicalAnd (masks.getD j default) (legals.getD j default) := by
    have hjz : j < (masks.zip legals).length := by
      rw [List.length_zip]
      omega
    rw [getD_map_of_lt _ _ _ hjz ((default : NDArr), (default : NDArr))]
    rw [getD_zip_of_lt _ _ _ hjz default default]
  have hfb : ((bckMasks.zip legals).map
        (fun (p : NDArr × NDArr) => npLogicalAnd p.1 p.2)).getD j default
      = npLogicalAnd (bckMasks.getD j default) (legals.getD j default) := by
    have hjz : j < (bckMasks.zip legals).length := by
      rw [List.length_zip]
      omega
    rw [getD_map_of_lt _ _ _ hjz ((default : NDArr), (default : NDArr))]
    rw [getD_zip_of_lt _ _ _ hjz default default]
  have hLVj : (((masks.zip legals).map (fun p => npLogicalAnd p.1 p.2)).map get_mask_voxels).getD j [] =
      get_mask_voxels (npLogicalAnd (masks.getD j default) (legals.getD j default)) := by
    rw [getD_map_of_lt _ _ _ (by simp only [List.length_map, List.length_zip]; omega)
      (default : NDArr)]
    rw [hfm]
  have hBVj : (((bckMasks.zip legals).map (fun (p : NDArr × NDArr) => npLogicalAnd p.1 p.2)).map get_mask_voxels).getD j [] =
      get_mask_voxels (npLogicalAnd (bckMasks.getD j default) (legals.getD j default)) := by
    rw [getD_map_of_lt _ _ _ (by simp only [List.length_map, List.length_zip]; omega)
      (default : NDArr)]
    rw [hfb]
  have hLSj : ((((masks.zip legals).map (fun p => npLogicalAnd p.1 p.2)).map get_mask_voxels).map (fun vox => centers_to_slice (vox.map coordInt) half)).getD j [] =
      centers_to_slice
        ((get_mask_voxels (npLogicalAnd (masks.getD j default) (legals.getD j default))).map
          coordInt) half := by
    rw [getD_map_of_lt _ _ _ (by simp only [List.length_map, List.length_zip]; omega)
      ([] : List (List Nat))]
    rw [hLVj]
  have hbA : balancedAssemble rperm masks half legals bckMasks 0 negRatio = ((((((masks.zip legals).map (fun p => npLogicalAnd p.1 p.2)).map get_mask_voxels).map (fun vox => centers_to_slice (vox.map coordInt) half)).zip (((((masks.zip legals).map (fun p => npLogicalAnd p.1 p.2)).map get_mask_voxels).zip (((bckMasks.zip legals).map (fun (p : NDArr × NDArr) => npLogicalAnd p.1 p.2)).map get_mask_voxels)).map (fun p => centers_to_slice ((pyTake (rperm p.2.length) (pyInt (negRatio * (p.1.length : ℚ)))).map (fun idx => coordInt (p.2.getD idx []))) half))).map (fun p => p.1 ++ p.2)) := rfl
  rw [hbA]
  rw [getD_map_of_lt _ _ _ (by simp only [List.length_map, List.length_zip]; omega)
    (([] : List (List NSlice)), ([] : List (List NSlice)))]
  rw [getD_zip_of_lt _ _ _ (by simp only [List.length_map, List.length_zip]; omega)
    ([] : List (List NSlice)) ([] : List (List NSlice))]
  dsimp only
  rw [hLSj]
  have hFS2j : (((((masks.zip legals).map (fun p => npLogicalAnd p.1 p.2)).map get_mask_voxels).zip (((bckMasks.zip legals).map (fun (p : NDArr × NDArr) => npLogicalAnd p.1 p.2)).map get_mask_voxels)).map (fun p => centers_to_slice ((pyTake (rperm p.2.length) (pyInt (negRatio * (p.1.length : ℚ)))).map (fun idx => coordInt (p.2.getD idx []))) half)).getD j [] =
      centers_to_slice
        ((pyTake (rperm (get_mask_voxels
            (npLogicalAnd (bckMasks.getD j default) (legals.getD j default))).length)
          (pyInt (negRatio * (((get_mask_voxels
            (npLogicalAnd (masks.getD j default) (legals.getD j default))).length : Nat) : ℚ)))).map
          (fun idx => coordInt ((get_mask_voxels
            (npLogicalAnd (bckMasks.getD j default) (legals.getD j default))).getD idx [])))
        half := by
    rw [getD_map_of_lt _ _ _ (by simp only [List.length_map, List.length_zip]; omega)
      (([] : List (List Nat)), ([] : List (List Nat)))]
    rw [getD_zip_of_lt _ _ _ (by simp only [List.length_map, List.length_zip]; omega)
      ([] : List (List Nat)) ([] : List (List Nat))]
    rw [hLVj, hBVj]
  rw [hFS2j]

theorem get_mask_voxels_nodup (m : NDArr) : (get_mask_voxels m).Nodup :=
  (allCoords_nodup m.shape).filter _

theorem pyInt_nonneg {q : ℚ} (h : 0 ≤ q) : 0 ≤ pyInt q :=
  Int.tdiv_nonneg (Rat.num_nonneg.mpr h) (by positivity)

theorem pyTake_nonneg {α : Type} (l : List α) {k : Int} (h : 0 ≤ k) :
    pyTake l k = l.take k.toNat := by
  unfold pyTake
  rw [if_neg (not_lt.mpr h)]

theorem nodup_getD_inj {α : Type} {l : List α} (h : l.Nodup) {i i2 : Nat}
    (hi : i < l.length) (hi2 : i2 < l.length) (d : α)
    (heq : l.getD i d = l.getD i2 d) : i = i2 := by
  rw [List.getD_eq_getElem?_getD, List.getElem?_eq_getElem hi] at heq
  rw [List.getD_eq_getElem?_getD, List.getElem?_eq_getElem hi2] at heq
  simp only [Option.getD_some] at heq
  exact (h.getElem_inj_iff).mp heq

/-- C4 amended: with `min_size = 0`, each case's output is the concatenation
of one slice per legal foreground voxel with background slices; the background
count is `min(int(neg_ratio * fg_count), #legal-background-voxels)` — the
`int()`-truncated product, capped by the available pool — and the background
centers are pairwise distinct legal background voxels (drawn without
replacement). -/
theorem C4_theorem (rperm : Nat → List Nat) (masks : List NDArr)
    (patch_size : List Nat) (rois : Option (List NDArr)) (negRatio : ℚ)
    (out : List (List (List NSlice)))
    (h : get_balanced_slices rperm masks patch_size rois 0 negRatio = .ok out)
    (hperm : ∀ n, (rperm n).Perm (List.range n))
    (hneg : 0 ≤ negRatio)
    (hroil : ∀ rs, rois = some rs → rs.length = masks.length) :
    out.length = masks.length ∧
    ∃ legals : List NDArr,
      ∀ j, j < masks.length →
        ∃ chosen : List (List Nat),
          out.getD j [] =
            centers_to_slice ((get_mask_voxels (npLogicalAnd (masks.getD j default)
              (legals.getD j default))).map coordInt) (patchHalf patch_size) ++
            centers_to_slice (chosen.map coordInt) (patchHalf patch_size) ∧
          chosen.length = min (pyInt (negRatio * (((get_mask_voxels (npLogicalAnd
              (masks.getD j default) (legals.getD j default))).length : Nat) : ℚ))).toNat
            (get_mask_voxels (npLogicalAnd ((bckMasksOf masks rois).getD j default)
              (legals.getD j default))).length ∧
          chosen.Nodup ∧
          (∀ c ∈ chosen, c ∈ get_mask_voxels (npLogicalAnd
            ((bckMasksOf masks rois).getD j default) (legals.getD j default))) ∧
          (out.getD j []).length =
            (get_mask_voxels (npLogicalAnd (masks.getD j default)
              (legals.getD j default))).length + chosen.length := by
  obtain ⟨m0, tl, minbb, maxbb, legals, rfl, hmin, hmax, hlegs, rfl⟩ :=
    get_balanced_slices_ok h
  have hsrclen : (bbSrcOf (m0 :: tl) rois).length = (m0 :: tl).length := by
    cases rois with
    | none => rfl
    | some rs => exact hroil rs rfl
  have hminlen : minbb.length = (m0 :: tl).length := by
    rw [mapM_ok_length hmin, hsrclen]
  have hmaxlen : maxbb.length = (m0 :: tl).length := by
    rw [mapM_ok_length hmax, hsrclen]
  have hleglen : legals.length = (m0 :: tl).length := by
    rw [mapM_ok_length hlegs, List.length_zip]
    omega
  have hbcklen : (bckMasksOf (m0 :: tl) rois).length = (m0 :: tl).length := by
    cases rois with
    | none => simp [bckMasksOf]
    | some rs =>
        simp only [bckMasksOf, List.length_map, List.length_zip]
        rw [hroil rs rfl]
        simp
  refine ⟨balancedAssemble_length hleglen hbcklen, legals, ?_⟩
  intro j hj
  rw [balancedAssemble_min0_getD hleglen hbcklen hj]
  set bckv := get_mask_voxels (npLogicalAnd ((bckMasksOf (m0 :: tl) rois).getD j default)
    (legals.getD j default)) with hbckv
  set fgv := get_mask_voxels (npLogicalAnd ((m0 :: tl).getD j default)
    (legals.getD j default)) with hfgv
  have hk : (0 : Int) ≤ pyInt (negRatio * ((fgv.length : Nat) : ℚ)) :=
    pyInt_nonneg (mul_nonneg hneg (by positivity))
  have htake : pyTake (rperm bckv.length) (pyInt (negRatio * ((fgv.length : Nat) : ℚ)))
      = (rperm bckv.length).take (pyInt (negRatio * ((fgv.length : Nat) : ℚ))).toNat :=
    pyTake_nonneg _ hk
  set idxs := (rperm bckv.length).take
    (pyInt (negRatio * ((fgv.length : Nat) : ℚ))).toNat with hidxs
  have hidxsub : ∀ i ∈ idxs, i < bckv.length := by
    intro i hi
    have h1 : i ∈ rperm bckv.length := (List.take_sublist _ _).mem hi
    have h2 : i ∈ List.range bckv.length := (hperm bckv.length).mem_iff.mp h1
    exact List.mem_range.mp h2
  have hidxnodup : idxs.Nodup :=
    (List.take_sublist _ _).nodup
      (((hperm bckv.length).nodup_iff).mpr (List.nodup_range _))
  refine ⟨idxs.map (fun idx => bckv.getD idx []), ?_, ?_, ?_, ?_, ?_⟩
  · rw [htake]
    congr 1
    rw [List.map_map]
    rfl
  · rw [List.length_map, hidxs, List.length_take]
    congr 1
    exact ((hperm bckv.length).length_eq.trans (List.length_range _))
  · apply List.Nodup.map_on
    · intro x hx y hy heq
      exact nodup_getD_inj (get_mask_voxels_nodup _) (hidxsub x hx) (hidxsub y hy) [] heq
    · exact hidxnodup
  · intro c hc
    obtain ⟨i, hi, rfl⟩ := List.mem_map.mp hc
    exact getD_mem_of_lt _ _ (hidxsub i hi) []
  · rw [htake, List.length_append]
    unfold centers_to_slice
    simp

/-- C4 counterexample: a fully-foreground 1-d mask of shape (5) with patch
size 2 and `neg_ratio = 1` has 4 legal foreground voxels but no legal
background voxel at all: the emitted case holds the 4 foreground slices and 0
background slices, not the `round(neg_ratio * fg) = 4` background slices the
claim demands. -/
theorem C4_counterexample :
    get_balanced_slices idPerm [cexMaskAllFg] [2] none 0 1 =
      .ok [[[⟨0, 2⟩], [⟨1, 3⟩], [⟨2, 4⟩], [⟨3, 5⟩]]] ∧
    ([[(⟨0, 2⟩ : NSlice)], [⟨1, 3⟩], [⟨2, 4⟩], [⟨3, 5⟩]].length = 4) ∧
    (round ((1 : ℚ) * (4 : ℚ)) = (4 : ℤ)) ∧
    (4 : Nat) ≠ 4 + 4 := by
  refine ⟨?_, rfl, by norm_num, by norm_num⟩
  unfold get_balanced_slices balancedAssemble
  simp only [pyInt_one_mul]
  rfl

/-- C4 witness: the balanced sampler on `witMaskTwoFg` (2 legal foreground
voxels, 1 legal background voxel, `neg_ratio = 1`). -/
theorem C4_witness :
    (get_balanced_slices idPerm [witMaskTwoFg] [2] none 0 1 =
      .ok [[[⟨0, 2⟩], [⟨2, 4⟩], [⟨1, 3⟩]]]) ∧
    ((0 : ℚ) ≤ 1) ∧
    (([[[(⟨0, 2⟩ : NSlice)], [⟨2, 4⟩], [⟨1, 3⟩]]] :
        List (List (List NSlice))).length = [witMaskTwoFg].length ∧
      ∃ legals : List NDArr,
        ∀ j, j < [witMaskTwoFg].length →
          ∃ chosen : List (List Nat),
            ([[[(⟨0, 2⟩ : NSlice)], [⟨2, 4⟩], [⟨1, 3⟩]]] :
                List (List (List NSlice))).getD j [] =
              centers_to_slice ((get_mask_voxels (npLogicalAnd
                ([witMaskTwoFg].getD j default)
                (legals.getD j default))).map coordInt) (patchHalf [2]) ++
              centers_to_slice (chosen.map coordInt) (patchHalf [2]) ∧
            chosen.length = min (pyInt ((1 : ℚ) * (((get_mask_voxels (npLogicalAnd
                ([witMaskTwoFg].getD j default)
                (legals.getD j default))).length : Nat) : ℚ))).toNat
              (get_mask_voxels (npLogicalAnd
                ((bckMasksOf [witMaskTwoFg] none).getD j default)
                (legals.getD j default))).length ∧
            chosen.Nodup ∧
            (∀ c ∈ chosen, c ∈ get_mask_voxels (npLogicalAnd
              ((bckMasksOf [witMaskTwoFg] none).getD j default)
              (legals.getD j default))) ∧
            (([[[(⟨0, 2⟩ : NSlice)], [⟨2, 4⟩], [⟨1, 3⟩]]] :
                List (List (List NSlice))).getD j []).length =
              (get_mask_voxels (npLogicalAnd ([witMaskTwoFg].getD j default)
                (legals.getD j default))).length + chosen.length) :=
  ⟨by unfold get_balanced_slices balancedAssemble
      simp only [pyInt_one_mul]
      rfl,
   by norm_num,
   C4_theorem idPerm [witMaskTwoFg] [2] none 1 [[[⟨0, 2⟩], [⟨2, 4⟩], [⟨1, 3⟩]]]
     (by unfold get_balanced_slices balancedAssemble
         simp only [pyInt_one_mul]
         rfl)
     (fun n => List.Perm.refl _)
     (by norm_num)
     (by intro rs hrs; cases hrs)⟩

/-- Invariant lemma for the `sample` loop: a successful run returns a
duplicate-free list of `max want acc.length` indices, each already collected
or positive-weight and in range. -/
theorem sampleAux_ok {rng : Nat → Nat} :
    ∀ (fuel : Nat) (w : List ℚ) (want hv : Nat) (acc : List Nat) (off : Nat)
      (res : List Nat),
      sampleAux rng fuel w want hv acc off = .ok res →
      hv = acc.length → acc.Nodup →
      (∀ i ∈ acc, w.getD i 0 = 0) → (∀ i ∈ acc, i < w.length) →
      res.Nodup ∧ res.length = max want acc.length ∧
        ∀ i ∈ res, i ∈ acc ∨ (i < w.length ∧ 0 < w.getD i 0) := by
  intro fuel
  induction fuel with
  | zero =>
      intro w want hv acc off res h hhv hnd hz hlt
      unfold sampleAux at h
      split at h
      · injection h with h
        subst h
        refine ⟨hnd, by omega, fun i hi => Or.inl hi⟩
      · cases h
  | succ fuel ih =>
      intro w want hv acc off res h hhv hnd hz hlt
      unfold sampleAux at h
      split at h
      · injection h with h
        subst h
        refine ⟨hnd, by omega, fun i hi => Or.inl hi⟩
      · rename_i hlt2
        obtain ⟨a, ha, h2⟩ := bindOk h
        obtain ⟨halen, hamem⟩ := multinomial_ok ha
        have hbsub : ∀ x ∈ tunique a, x ∈ posIndices w :=
          fun x hx => hamem x (mem_tunique.mp hx)
        have hstep := ih (zeroAt w (tunique a)) want (hv + (tunique a).length)
          (acc ++ tunique a) (off + (want - hv)) res h2
          (by simp [hhv])
          (by
            refine hnd.append (tunique_nodup a) ?_
            intro x hx hxb
            have hxp := hbsub x hxb
            have hm := mem_posIndices.mp hxp
            rw [hz x hx] at hm
            exact absurd hm.2 (lt_irrefl 0))
          (by
            intro i hi
            rcases List.mem_append.mp hi with hia | hib
            · rw [zeroAt_getD]
              rw [if_pos (hlt i hia)]
              by_cases hmem : i ∈ tunique a
              · rw [if_pos hmem]
              · rw [if_neg hmem]
                exact hz i hia
            · rw [zeroAt_getD]
              have := mem_posIndices.mp (hbsub i hib)
              rw [if_pos this.1, if_pos hib])
          (by
            intro i hi
            rw [zeroAt_length]
            rcases List.mem_append.mp hi with hia | hib
            · exact hlt i hia
            · exact (mem_posIndices.mp (hbsub i hib)).1)
        obtain ⟨hnd2, hlen2, hmem2⟩ := hstep
        have hblen : (tunique a).length ≤ want - hv := by
          have h1 : (tunique a).length ≤ a.dedup.length := by
            unfold tunique
            rw [List.length_insertionSort]
          have h2b : a.dedup.length ≤ a.length := a.dedup_sublist.length_le
          omega
        refine ⟨hnd2, ?_, ?_⟩
        · rw [hlen2]
          simp only [List.length_append]
          omega
        · intro i hi
          rcases hmem2 i hi with hin | hpos
          · rcases List.mem_append.mp hin with hia | hib
            · exact Or.inl hia
            · right
              exact mem_posIndices.mp (hbsub i hib)
          · right
            rw [zeroAt_length] at hpos
            obtain ⟨hplt, hpval⟩ := hpos
            rw [zeroAt_getD, if_pos hplt] at hpval
            by_cases hmem : i ∈ tunique a
            · rw [if_pos hmem] at hpval
              exact absurd hpval (lt_irrefl 0)
            · rw [if_neg hmem] at hpval
              exact ⟨hplt, hpval⟩

/-- A successful `sample(weights, want)` returns `want` distinct in-range
indices of positive weight (and `want` was nonnegative). -/
theorem sample_ok {rng : Nat → Nat} {w : List ℚ} {want : Int} {res : List Nat}
    (h : sample rng w want = .ok res) :
    0 ≤ want ∧ res.Nodup ∧ res.length = want.toNat ∧
      ∀ i ∈ res, i < w.length ∧ 0 < w.getD i 0 := by
  unfold sample at h
  split at h
  · cases h
  · rename_i hneg
    obtain ⟨hnd, hlen, hmem⟩ := sampleAux_ok want.toNat w want.toNat 0 [] 0 res h rfl
      (List.nodup_nil) (by intro i hi; cases hi) (by intro i hi; cases hi)
    refine ⟨by omega, hnd, by simpa using hlen, ?_⟩
    intro i hi
    rcases hmem i hi with hin | hpos
    · cases hin
    · exact hpos

theorem sampleAux_success {rng : Nat → Nat} :
    ∀ (fuel : Nat) (w : List ℚ) (want hv : Nat) (acc : List Nat) (off : Nat),
      (∀ x ∈ w, 0 ≤ x) → want - hv ≤ posCount w → want - hv ≤ fuel →
      ∃ res, sampleAux rng fuel w want hv acc off = .ok res := by
  intro fuel
  induction fuel with
  | zero =>
      intro w want hv acc off _ _ hfuel
      refine ⟨acc, ?_⟩
      unfold sampleAux
      rw [if_pos (by omega)]
  | succ fuel ih =>
      intro w want hv acc off hnn hcount hfuel
      by_cases hdone : want ≤ hv
      · refine ⟨acc, ?_⟩
        unfold sampleAux
        rw [if_pos hdone]
      · have hpos : 0 < posCount w := by omega
        have hmul := @multinomial_success rng off w (want - hv) hnn hpos
        set a := (List.range (want - hv)).map
          (fun j => (posIndices w).getD (rng (off + j) % (posIndices w).length) 0) with ha
        have hasub : ∀ x ∈ a, x ∈ posIndices w := by
          intro x hx
          obtain ⟨i2, _, rfl⟩ := List.mem_map.mp hx
          apply getD_mem_of_lt
          apply Nat.mod_lt
          unfold posCount at hpos
          omega
        have hane : a ≠ [] := by
          rw [ha]
          simp only [ne_eq, List.map_eq_nil_iff, List.range_eq_nil]
          omega
        have hbne : tunique a ≠ [] := tunique_ne_nil hane
        have hbsub : ∀ x ∈ tunique a, x ∈ posIndices w :=
          fun x hx => hasub x (mem_tunique.mp hx)
        have hblen1 : 1 ≤ (tunique a).length := List.length_pos.mpr hbne
        have hblen2 : (tunique a).length ≤ want - hv := by
          have h1 : (tunique a).length ≤ a.dedup.length := by
            unfold tunique
            rw [List.length_insertionSort]
          have h2b : a.dedup.length ≤ a.length := a.dedup_sublist.length_le
          have h3 : a.length = want - hv := by
            rw [ha]
            simp
          omega
        have hcount2 : posCount (zeroAt w (tunique a)) = posCount w - (tunique a).length :=
          posCount_zeroAt (tunique_nodup a) hbsub
        obtain ⟨res, hres⟩ := ih (zeroAt w (tunique a)) want (hv + (tunique a).length)
          (acc ++ tunique a) (off + (want - hv))
          (by
            intro x hx
            obtain ⟨i2, hi2, rfl⟩ := List.mem_map.mp hx
            split
            · exact le_refl 0
            · exact hnn _ (getD_mem_of_lt w i2 (List.mem_range.mp hi2) 0))
          (by omega)
          (by omega)
        refine ⟨res, ?_⟩
        have hstep : sampleAux rng (fuel + 1) w want hv acc off =
            (do
              let a2 ← multinomial rng off w (want - hv)
              let b := tunique a2
              sampleAux rng fuel (zeroAt w b) want (hv + b.length) (acc ++ b)
                (off + (want - hv))) := by
          conv_lhs => unfold sampleAux
          rw [if_neg hdone]
        rw [hstep, hmul, okBind]
        exact hres

theorem sampleAux_insufficient {rng : Nat → Nat} :
    ∀ (fuel : Nat) (w : List ℚ) (want hv : Nat) (acc : List Nat) (off : Nat),
      (∀ x ∈ w, 0 ≤ x) → posCount w < want - hv → want - hv ≤ fuel →
      sampleAux rng fuel w want hv acc off =
        .error "invalid multinomial distribution (sum of probabilities <= 0)" := by
  intro fuel
  induction fuel with
  | zero =>
      intro w want hv acc off _ hcount hfuel
      omega
  | succ fuel ih =>
      intro w want hv acc off hnn hcount hfuel
      have hdone : ¬ want ≤ hv := by omega
      have hstep2 : sampleAux rng (fuel + 1) w want hv acc off =
          (do
            let a2 ← multinomial rng off w (want - hv)
            let b := tunique a2
            sampleAux rng fuel (zeroAt w b) want (hv + b.length) (acc ++ b)
              (off + (want - hv))) := by
        conv_lhs => unfold sampleAux
        rw [if_neg hdone]
      by_cases hzero : posCount w = 0
      · rw [hstep2, multinomial_zero hnn hzero, errBind]
      · have hpos : 0 < posCount w := by omega
        have hmul := @multinomial_success rng off w (want - hv) hnn hpos
        set a := (List.range (want - hv)).map
          (fun j => (posIndices w).getD (rng (off + j) % (posIndices w).length) 0) with ha
        have hasub : ∀ x ∈ a, x ∈ posIndices w := by
          intro x hx
          obtain ⟨i2, _, rfl⟩ := List.mem_map.mp hx
          apply getD_mem_of_lt
          apply Nat.mod_lt
          unfold posCount at hpos
          omega
        have hane : a ≠ [] := by
          rw [ha]
          simp only [ne_eq, List.map_eq_nil_iff, List.range_eq_nil]
          omega
        have hbne : tunique a ≠ [] := tunique_ne_nil hane
        have hbsub : ∀ x ∈ tunique a, x ∈ posIndices w :=
          fun x hx => hasub x (mem_tunique.mp hx)
        have hblen1 : 1 ≤ (tunique a).length := List.length_pos.mpr hbne
        have hblen2 : (tunique a).length ≤ want - hv := by
          have h1 : (tunique a).length ≤ a.dedup.length := by
            unfold tunique
            rw [List.length_insertionSort]
          have h2b : a.dedup.length ≤ a.length := a.dedup_sublist.length_le
          have h3 : a.length = want - hv := by
            rw [ha]
            simp
          omega
        have hsubcount : (tunique a).length ≤ posCount w := by
          have hfin : ((posIndices w).filter (fun x => decide (x ∈ tunique a))).length
              = (tunique a).length := by
            have h1 : ((posIndices w).filter (fun x => decide (x ∈ tunique a))).Nodup :=
              (posIndices_nodup w).filter _
            have h2 : ((posIndices w).filter
                (fun x => decide (x ∈ tunique a))).toFinset = (tunique a).toFinset := by
              ext x
              simp only [List.mem_toFinset, List.mem_filter, decide_eq_true_eq]
              constructor
              · rintro ⟨_, hxb⟩
                exact hxb
              · intro hxb
                exact ⟨hbsub x hxb, hxb⟩
            have h3 := List.toFinset_card_of_nodup h1
            have h4 := List.toFinset_card_of_nodup (tunique_nodup a)
            rw [h2, h4] at h3
            omega
          calc (tunique a).length
              = ((posIndices w).filter (fun x => decide (x ∈ tunique a))).length :=
                hfin.symm
            _ ≤ (posIndices w).length := List.length_filter_le _ _
        have hcount2 : posCount (zeroAt w (tunique a)) = posCount w - (tunique a).length :=
          posCount_zeroAt (tunique_nodup a) hbsub
        have hrec := ih (zeroAt w (tunique a)) want (hv + (tunique a).length)
          (acc ++ tunique a) (off + (want - hv))
          (by
            intro x hx
            obtain ⟨i2, hi2, rfl⟩ := List.mem_map.mp hx
            split
            · exact le_refl 0
            · exact hnn _ (getD_mem_of_lt w i2 (List.mem_range.mp hi2) 0))
          (by omega)
          (by omega)
        rw [hstep2, hmul, okBind]
        exact hrec

/-- C9: the without-replacement draw of `sample` never loops: when the request
exceeds the distinct positive-weight indices it fails with torch's explicit
zero-probability error, and otherwise the rejection loop terminates with
exactly `want` distinct positive-weight indices. -/
theorem C9_theorem (w : List ℚ) (want : Nat) (rng : Nat → Nat)
    (hnn : ∀ x ∈ w, 0 ≤ x) :
    (posCount w < want →
      sample rng w (want : Int) =
        .error "invalid multinomial distribution (sum of probabilities <= 0)") ∧
    (want ≤ posCount w →
      ∃ res, sample rng w (want : Int) = .ok res ∧ res.length = want ∧ res.Nodup ∧
        ∀ i ∈ res, i < w.length ∧ 0 < w.getD i 0) := by
  constructor
  · intro hlt
    unfold sample
    rw [if_neg (by omega)]
    have : (want : Int).toNat = want := by omega
    rw [this]
    exact sampleAux_insufficient want w want 0 [] 0 hnn (by omega) (by omega)
  · intro hle
    unfold sample
    rw [if_neg (by omega)]
    have hto : (want : Int).toNat = want := by omega
    rw [hto]
    obtain ⟨res, hres⟩ := sampleAux_success want w want 0 [] 0 hnn (by omega) (by omega)
    obtain ⟨hnd, hlen, hmem⟩ := sampleAux_ok want w want 0 [] 0 res hres rfl
      List.nodup_nil (by intro i hi; cases hi) (by intro i hi; cases hi)
    refine ⟨res, hres, by simpa using hlen, hnd, ?_⟩
    intro i hi
    rcases hmem i hi with hin | hpos
    · cases hin
    · exact hpos

/-- C9 witness: the weight vector `[1, 2]` with a request of 2 succeeds; a
request of 3 fails with the explicit multinomial error. -/
theorem C9_witness :
    (∀ x ∈ [(1 : ℚ), 2], 0 ≤ x) ∧
    ((posCount [(1 : ℚ), 2] < 3 →
      sample (fun _ => 0) [(1 : ℚ), 2] ((3 : Nat) : Int) =
        .error "invalid multinomial distribution (sum of probabilities <= 0)") ∧
     (3 ≤ posCount [(1 : ℚ), 2] →
      ∃ res, sample (fun _ => 0) [(1 : ℚ), 2] ((3 : Nat) : Int) = .ok res ∧
        res.length = 3 ∧ res.Nodup ∧
        ∀ i ∈ res, i < [(1 : ℚ), 2].length ∧ 0 < [(1 : ℚ), 2].getD i 0)) ∧
    ((posCount [(1 : ℚ), 2] < 2 →
      sample (fun _ => 0) [(1 : ℚ), 2] ((2 : Nat) : Int) =
        .error "invalid multinomial distribution (sum of probabilities <= 0)") ∧
     (2 ≤ posCount [(1 : ℚ), 2] →
      ∃ res, sample (fun _ => 0) [(1 : ℚ), 2] ((2 : Nat) : Int) = .ok res ∧
        res.length = 2 ∧ res.Nodup ∧
        ∀ i ∈ res, i < [(1 : ℚ), 2].length ∧ 0 < [(1 : ℚ), 2].getD i 0)) :=
  ⟨by norm_num,
   C9_theorem [(1 : ℚ), 2] 3 (fun _ => 0) (by norm_num),
   C9_theorem [(1 : ℚ), 2] 2 (fun _ => 0) (by norm_num)⟩

theorem pyInt_eq_floor {q : ℚ} (h : 0 ≤ q) : pyInt q = ⌊q⌋ := by
  unfold pyInt
  rw [Rat.floor_def, Int.tdiv_eq_ediv (Rat.num_nonneg.mpr h) (by positivity)]

theorem cex2_nHard : nHard { cexSampler2 with step := cexSampler2.step + 1 } = 0 := by
  show pyInt ((cexSampler2.num_samples : ℚ) * cexSampler2.rate) = 0
  rw [show ((cexSampler2.num_samples : ℚ) * cexSampler2.rate) = 1 / 2 by
    norm_num [cexSampler2]]
  unfold pyInt
  norm_num
  decide

theorem cex2_nEasy : nEasy { cexSampler2 with step := cexSampler2.step + 1 } = 2 := by
  unfold nEasy
  rw [cex2_nHard]
  decide

theorem cex2_easyW :
    easyW { cexSampler2 with step := cexSampler2.step + 1 } 2 = [2, 1, 0] := by
  show [tclamp ((2 : ℚ) - 0) 0 2, tclamp ((2 : ℚ) - 1) 0 2, tclamp ((2 : ℚ) - 2) 0 2]
      = [2, 1, 0]
  unfold tclamp
  norm_num

theorem cex2_draw :
    curriculumDraw oracZero { cexSampler2 with step := cexSampler2.step + 1 } =
      .ok [0, 1] := by
  have h1 : curriculumDraw oracZero { cexSampler2 with step := cexSampler2.step + 1 } =
      (do
        let ei ← sample oracZero.easyR
          (easyW { cexSampler2 with step := cexSampler2.step + 1 } 2)
          (nEasy { cexSampler2 with step := cexSampler2.step + 1 })
        let hw := zeroAt cexSampler2.weights ei
        let hi ← sample oracZero.hardR hw
          (nHard { cexSampler2 with step := cexSampler2.step + 1 })
        pure (applyShuffle (oracZero.shuf (hi ++ ei).length) (hi ++ ei))) := rfl
  rw [h1, cex2_easyW, cex2_nEasy, cex2_nHard]
  rfl

/-- C6: refuted as stated.  In the curriculum state the hard count is
`int(num_samples * rate)` — truncation (= floor for a nonnegative rate) — not
`ceil(num_samples * rate)`: with budget 2 and rate 1/4 a successful update
draws 0 hard samples although the claimed ceiling is 1. -/
theorem C6_counterexample :
    ¬ (cexSampler2.step + 1 < cexSampler2.step_inc) ∧
    (update oracZero cexSampler2).2 = none ∧
    nHard { cexSampler2 with step := cexSampler2.step + 1 } = 0 ∧
    (⌈(cexSampler2.num_samples : ℚ) * cexSampler2.rate⌉ : Int) = 1 := by
  refine ⟨by decide, ?_, cex2_nHard, ?_⟩
  · unfold update
    dsimp only
    rw [if_neg (show ¬ (cexSampler2.step + 1 < cexSampler2.step_inc) by decide)]
    simp only [cex2_draw]
  · rw [show ((cexSampler2.num_samples : ℚ) * cexSampler2.rate) = 1 / 2 by
      norm_num [cexSampler2], Int.ceil_eq_iff]
    constructor
    · norm_num
    · norm_num

/-- C6: amended split of the budget.  A successful curriculum-state `update`
stores a shuffle of `hard ++ easy` where the hard count is
`int(num_samples * rate) = floor(num_samples * rate)` (for a nonnegative
rate) and the easy count is the remaining budget, the two counts summing to
`num_samples`. -/
theorem C6_theorem (o : Orac) (s0 : WSRS) (idx : List Nat)
    (hcur : ¬ (s0.step + 1 < s0.step_inc)) (hr : 0 ≤ s0.rate)
    (hdraw : curriculumDraw o { s0 with step := s0.step + 1 } = .ok idx) :
    update o s0 = (rateStep { s0 with step := s0.step + 1, indices := idx }, none) ∧
    ∃ hard easy : List Nat,
      idx = applyShuffle (o.shuf (hard.length + easy.length)) (hard ++ easy) ∧
      (hard.length : Int) = nHard { s0 with step := s0.step + 1 } ∧
      (easy.length : Int) = nEasy { s0 with step := s0.step + 1 } ∧
      nHard { s0 with step := s0.step + 1 } = ⌊(s0.num_samples : ℚ) * s0.rate⌋ ∧
      hard.length + easy.length = s0.num_samples := by
  constructor
  · unfold update
    dsimp only
    rw [if_neg hcur]
    simp only [hdraw]
  · unfold curriculumDraw at hdraw
    obtain ⟨mw, hmw, h2⟩ := bindOk hdraw
    obtain ⟨ei, hei, h3⟩ := bindOk h2
    obtain ⟨hi, hhi, h4⟩ := bindOk h3
    have hidx : idx = applyShuffle (o.shuf (hi ++ ei).length) (hi ++ ei) :=
      (Except.ok.inj h4).symm
    obtain ⟨hwe, hnde, hlene, hmeme⟩ := sample_ok hei
    obtain ⟨hwh, hndh, hlenh, hmemh⟩ := sample_ok hhi
    refine ⟨hi, ei, ?_, ?_, ?_, ?_, ?_⟩
    · rw [hidx, List.length_append]
    · rw [hlenh]
      exact Int.toNat_of_nonneg hwh
    · rw [hlene]
      exact Int.toNat_of_nonneg hwe
    · exact pyInt_eq_floor (mul_nonneg (by positivity) hr)
    · have h5 : nEasy { s0 with step := s0.step + 1 } =
          (s0.num_samples : Int) - nHard { s0 with step := s0.step + 1 } := rfl
      omega

/-- C6 witness: the budget-2, rate-1/4 sampler in the curriculum state: the
update succeeds and splits into 0 hard and 2 easy samples. -/
theorem C6_witness :
    (¬ (cexSampler2.step + 1 < cexSampler2.step_inc) ∧ (0 : ℚ) ≤ cexSampler2.rate) ∧
    (update oracZero cexSampler2 =
        (rateStep { cexSampler2 with step := cexSampler2.step + 1, indices := [0, 1] },
          none) ∧
      ∃ hard easy : List Nat,
        [0, 1] = applyShuffle (oracZero.shuf (hard.length + easy.length)) (hard ++ easy) ∧
        (hard.length : Int) = nHard { cexSampler2 with step := cexSampler2.step + 1 } ∧
        (easy.length : Int) = nEasy { cexSampler2 with step := cexSampler2.step + 1 } ∧
        nHard { cexSampler2 with step := cexSampler2.step + 1 } =
          ⌊(cexSampler2.num_samples : ℚ) * cexSampler2.rate⌋ ∧
        hard.length + easy.length = cexSampler2.num_samples) :=
  ⟨⟨by decide, by norm_num [cexSampler2]⟩,
   C6_theorem oracZero cexSampler2 [0, 1] (by decide) (by norm_num [cexSampler2]) cex2_draw⟩

theorem rateStep_rate (s : WSRS) (h1 : s.rate ≤ 1) (hinc : 0 ≤ s.rate_increase) :
    s.rate ≤ (rateStep s).rate ∧ (rateStep s).rate ≤ 1 ∧
      (rateStep s).rate_increase = s.rate_increase := by
  unfold rateStep
  split
  · exact ⟨le_min (by linarith) h1, min_le_right _ _, rfl⟩
  · exact ⟨le_refl _, h1, rfl⟩

theorem update_rate_step (o : Orac) (s : WSRS) (h1 : s.rate ≤ 1)
    (hinc : 0 ≤ s.rate_increase) :
    s.rate ≤ ((update o s).1).rate ∧ ((update o s).1).rate ≤ 1 ∧
      ((update o s).1).rate_increase = s.rate_increase := by
  unfold update
  dsimp only
  split
  · exact rateStep_rate _ h1 hinc
  · cases h : curriculumDraw o { s with step := s.step + 1 } with
    | ok idx =>
        simp only [h]
        exact rateStep_rate _ h1 hinc
    | error e =>
        simp only [h]
        exact ⟨le_refl _, h1, trivial⟩

theorem runUpdates_rate (os : List Orac) :
    ∀ s : WSRS, s.rate ≤ 1 → 0 ≤ s.rate_increase →
      s.rate ≤ (runUpdates os s).rate ∧ (runUpdates os s).rate ≤ 1 ∧
        (runUpdates os s).rate_increase = s.rate_increase := by
  induction os with
  | nil => exact fun s h1 _ => ⟨le_refl _, h1, rfl⟩
  | cons o os ih =>
      intro s h1 h2
      obtain ⟨ha, hb, hc⟩ := update_rate_step o s h1 h2
      obtain ⟨hd, he, hf⟩ := ih (update o s).1 hb (by rw [hc]; exact h2)
      have hstep : runUpdates (o :: os) s = runUpdates os (update o s).1 := rfl
      exact ⟨le_trans ha hd, he, by rw [hstep, hf, hc]⟩

theorem validShuf_oracZero : validShuf oracZero :=
  fun _ => List.Perm.refl _

theorem map_getD_range (l : List Nat) :
    (List.range l.length).map (fun i => l.getD i 0) = l := by
  apply List.ext_getElem
  · simp
  · intro i h1 h2
    simp only [List.getElem_map, List.getElem_range]
    exact List.getD_eq_getElem l 0 h2

theorem applyShuffle_perm {p l : List Nat} (hp : p.Perm (List.range l.length)) :
    (applyShuffle p l).Perm l := by
  unfold applyShuffle
  have h2 := hp.map (fun i => l.getD i 0)
  rw [map_getD_range] at h2
  exact h2

theorem cexS5a_update : update oracZero cexSampler5 = (cexS5a, none) := rfl

theorem cexS5a_nHard : nHard { cexS5a with step := cexS5a.step + 1 } = 0 := by
  show pyInt ((cexS5a.num_samples : ℚ) * cexS5a.rate) = 0
  rw [show ((cexS5a.num_samples : ℚ) * cexS5a.rate) = 3 / 10 by norm_num [cexS5a]]
  unfold pyInt
  norm_num
  decide

theorem cexS5a_nEasy : nEasy { cexS5a with step := cexS5a.step + 1 } = 3 := by
  unfold nEasy
  rw [cexS5a_nHard]
  decide

theorem cexS5a_easyW :
    easyW { cexS5a with step := cexS5a.step + 1 } 32767 = [0, 0, 0, 0, 0] := by
  show [tclamp ((32767 : ℚ) - 32767) 0 32767, tclamp ((32767 : ℚ) - 32767) 0 32767,
      tclamp ((32767 : ℚ) - 32767) 0 32767, tclamp ((32767 : ℚ) - 32767) 0 32767,
      tclamp ((32767 : ℚ) - 32767) 0 32767] = [0, 0, 0, 0, 0]
  unfold tclamp
  norm_num

theorem cexS5a_draw :
    curriculumDraw oracZero { cexS5a with step := cexS5a.step + 1 } =
      .error "invalid multinomial distribution (sum of probabilities <= 0)" := by
  have h1 : curriculumDraw oracZero { cexS5a with step := cexS5a.step + 1 } =
      (do
        let ei ← sample oracZero.easyR
          (easyW { cexS5a with step := cexS5a.step + 1 } 32767)
          (nEasy { cexS5a with step := cexS5a.step + 1 })
        let hw := zeroAt cexS5a.weights ei
        let hi ← sample oracZero.hardR hw
          (nHard { cexS5a with step := cexS5a.step + 1 })
        pure (applyShuffle (oracZero.shuf (hi ++ ei).length) (hi ++ ei))) := rfl
  rw [h1, cexS5a_easyW, cexS5a_nEasy]
  rfl

/-- C5: refuted as stated.  For the sampler over 5 samples with warm-up
threshold 2 and budget `ceil(5/2) = 3`, the second `update` (at the warm-up
threshold) raises inside the curriculum draw (all fresh weights are the 32767
sentinel, so every "easy" weight clamps to zero), leaving the stale warm-up
window `[3, 4]` of size 2 ≠ 3 as the index set. -/
theorem C5_counterexample :
    cexSampler5.step_inc ≤ [oracZero, oracZero].length ∧
    (runUpdates [oracZero, oracZero] cexSampler5).indices.length ≠
      (runUpdates [oracZero, oracZero] cexSampler5).num_samples ∧
    (update oracZero (update oracZero cexSampler5).1).2 =
      some "invalid multinomial distribution (sum of probabilities <= 0)" := by
  have h2 : update oracZero cexS5a =
      ({ cexS5a with step := cexS5a.step + 1 },
        some "invalid multinomial distribution (sum of probabilities <= 0)") := by
    unfold update
    dsimp only
    rw [if_neg (show ¬ (cexS5a.step + 1 < cexS5a.step_inc) by decide)]
    simp only [cexS5a_draw]
  refine ⟨by decide, ?_, ?_⟩
  · have hru : runUpdates [oracZero, oracZero] cexSampler5 =
        { cexS5a with step := cexS5a.step + 1 } := by
      simp only [runUpdates, List.foldl, cexS5a_update, h2]
    rw [hru]
    decide
  · simp only [cexS5a_update, h2]

/-- C5: amended invariants of the curriculum sampler.  With an initial rate at
most 1 and a nonnegative rate increment, the rate is non-decreasing along any
sequence of `update` calls — from any starting state, warm-up included: every
prefix's rate is at most the full sequence's rate — and stays bounded by 1;
and a curriculum-state `update` whose draw succeeds (under a genuine
`randperm` shuffle oracle) stores a duplicate-free index set of size exactly
the per-epoch budget `num_samples`.  (Warm-up windows can be shorter than the
budget, and a failing curriculum draw leaves the previous index set in
place — see the counterexample.) -/
theorem C5_theorem (o : Orac) (s0 : WSRS) (os : List Orac) (idx : List Nat)
    (h1 : s0.rate ≤ 1) (hinc : 0 ≤ s0.rate_increase) :
    (∀ os1 os2, os = os1 ++ os2 →
      s0.rate ≤ (runUpdates os1 s0).rate ∧
      (runUpdates os1 s0).rate ≤ (runUpdates os s0).rate ∧
      (runUpdates os s0).rate ≤ 1) ∧
    (¬ (s0.step + 1 < s0.step_inc) → validShuf o →
      curriculumDraw o { s0 with step := s0.step + 1 } = .ok idx →
      ((update o s0).1).indices = idx ∧ idx.Nodup ∧ idx.length = s0.num_samples) := by
  constructor
  · intro os1 os2 heq
    obtain ⟨ha1, hb1, hc1⟩ := runUpdates_rate os1 s0 h1 hinc
    obtain ⟨ha2, hb2, hc2⟩ := runUpdates_rate os2 (runUpdates os1 s0) hb1
      (by rw [hc1]; exact hinc)
    have hsplit : runUpdates os s0 = runUpdates os2 (runUpdates os1 s0) := by
      rw [heq]
      unfold runUpdates
      rw [List.foldl_append]
    rw [hsplit]
    exact ⟨ha1, ha2, hb2⟩
  · intro hcur hsh hdraw
    have hupd : ((update o s0).1).indices = idx := by
      unfold update
      dsimp only
      rw [if_neg hcur]
      simp only [hdraw]
      unfold rateStep
      split <;> rfl
    unfold curriculumDraw at hdraw
    obtain ⟨mw, hmw, h2⟩ := bindOk hdraw
    obtain ⟨ei, hei, h3⟩ := bindOk h2
    obtain ⟨hi, hhi, h4⟩ := bindOk h3
    have hidx : idx = applyShuffle (o.shuf (hi ++ ei).length) (hi ++ ei) :=
      (Except.ok.inj h4).symm
    obtain ⟨hwe, hnde, hlene, hmeme⟩ := sample_ok hei
    obtain ⟨hwh, hndh, hlenh, hmemh⟩ := sample_ok hhi
    have hdisj : ∀ j ∈ hi, j ∉ ei := by
      intro j hjMem hjEi
      have h5 := (hmemh j hjMem).2
      have h6 : j < ({ s0 with step := s0.step + 1 } : WSRS).weights.length := by
        have h7 := (hmemh j hjMem).1
        rwa [zeroAt_length] at h7
      rw [zeroAt_getD, if_pos h6, if_pos hjEi] at h5
      exact absurd h5 (lt_irrefl 0)
    have hmixnd : (hi ++ ei).Nodup := hndh.append hnde hdisj
    have hperm : idx.Perm (hi ++ ei) := by
      rw [hidx]
      exact applyShuffle_perm (hsh (hi ++ ei).length)
    refine ⟨hupd, hperm.nodup_iff.mpr hmixnd, ?_⟩
    rw [hperm.length_eq, List.length_append, hlenh, hlene]
    have h7 : nEasy { s0 with step := s0.step + 1 } =
        (s0.num_samples : Int) - nHard { s0 with step := s0.step + 1 } := rfl
    omega

/-- C5 witness: the budget-2 curriculum sampler with rate 1/4: one further
update keeps the rate in `[1/4, 1]` along every prefix, and the successful
draw `[0, 1]` is duplicate-free of size 2; the curriculum-state hypotheses
hold concretely. -/
theorem C5_witness :
    (cexSampler2.rate ≤ 1 ∧ (0 : ℚ) ≤ cexSampler2.rate_increase ∧
      ¬ (cexSampler2.step + 1 < cexSampler2.step_inc) ∧ validShuf oracZero ∧
      curriculumDraw oracZero { cexSampler2 with step := cexSampler2.step + 1 } =
        .ok [0, 1]) ∧
    ((∀ os1 os2, [oracZero] = os1 ++ os2 →
        cexSampler2.rate ≤ (runUpdates os1 cexSampler2).rate ∧
        (runUpdates os1 cexSampler2).rate ≤ (runUpdates [oracZero] cexSampler2).rate ∧
        (runUpdates [oracZero] cexSampler2).rate ≤ 1) ∧
      (¬ (cexSampler2.step + 1 < cexSampler2.step_inc) → validShuf oracZero →
        curriculumDraw oracZero { cexSampler2 with step := cexSampler2.step + 1 } =
          .ok [0, 1] →
        ((update oracZero cexSampler2).1).indices = [0, 1] ∧
          ([0, 1] : List Nat).Nodup ∧ ([0, 1] : List Nat).length =
            cexSampler2.num_samples)) :=
  ⟨⟨by norm_num [cexSampler2], by norm_num [cexSampler2], by decide,
    validShuf_oracZero, cex2_draw⟩,
   C5_theorem oracZero cexSampler2 [oracZero] [0, 1] (by norm_num [cexSampler2])
     (by norm_num [cexSampler2])⟩

theorem cumsum_length : ∀ xs : List Nat, (cumsum xs).length = xs.length
  | [] => rfl
  | x :: xs => by simp [cumsum, cumsum_length xs]

theorem cumsum_getD (xs : List Nat) : ∀ i : Nat, i < xs.length →
    (cumsum xs).getD i 0 = (xs.take (i + 1)).sum := by
  induction xs with
  | nil => intro i hi; cases hi
  | cons x xs ih =>
      intro i hi
      cases i with
      | zero => simp [cumsum]
      | succ k =>
          have hk : k < xs.length := by simpa using hi
          show ((cumsum xs).map (x + ·)).getD k 0 = (x :: xs.take (k + 1)).sum
          rw [getD_map_of_lt _ _ _ (by rw [cumsum_length]; exact hk) 0]
          rw [ih k hk]
          simp [List.sum_cons]

theorem take_sum_le (xs : List Nat) : ∀ {m n : Nat}, m ≤ n →
    (xs.take m).sum ≤ (xs.take n).sum := by
  induction xs with
  | nil => intro m n _; simp
  | cons x xs ih =>
      intro m n hmn
      cases m with
      | zero => simp
      | succ m2 =>
          cases n with
          | zero => omega
          | succ n2 =>
              simp only [List.take_succ_cons, List.sum_cons]
              have h2 := ih (show m2 ≤ n2 by omega)
              omega

theorem take_succ_sum (xs : List Nat) : ∀ j : Nat, j < xs.length →
    (xs.take (j + 1)).sum = (xs.take j).sum + xs.getD j 0 := by
  induction xs with
  | nil => intro j hj; cases hj
  | cons x xs ih =>
      intro j hj
      cases j with
      | zero => simp
      | succ k =>
          have hk : k < xs.length := by simpa using hj
          simp only [List.take_succ_cons, List.sum_cons, List.getD_cons_succ]
          rw [ih k hk]
          omega

theorem firstGt_map_add (x i : Nat) (hx : x ≤ i) (l : List Nat) :
    firstGt i (l.map (x + ·)) = firstGt (i - x) l := by
  induction l with
  | nil => rfl
  | cons c l ih =>
      simp only [List.map_cons, firstGt]
      by_cases h : i - x < c
      · rw [if_pos (by omega), if_pos h]
      · rw [if_neg (by omega), if_neg h, ih]

theorem firstGt_cumsum (xs : List Nat) : ∀ i : Nat, i < xs.sum →
    ∃ j, firstGt i (cumsum xs) = some j ∧ j < xs.length ∧
      (xs.take j).sum ≤ i ∧ i < (xs.take (j + 1)).sum := by
  induction xs with
  | nil => intro i hi; simp at hi
  | cons x xs ih =>
      intro i hi
      by_cases hx : i < x
      · refine ⟨0, ?_, by simp, by simp, by simpa using hx⟩
        show (if i < x then some 0 else (firstGt i ((cumsum xs).map (x + ·))).map (· + 1))
            = some 0
        rw [if_pos hx]
      · have hx2 : x ≤ i := by omega
        have hi2 : i - x < xs.sum := by
          simp only [List.sum_cons] at hi
          omega
        obtain ⟨j, hj1, hj2, hj3, hj4⟩ := ih (i - x) hi2
        refine ⟨j + 1, ?_, by simpa using hj2, ?_, ?_⟩
        · show (if i < x then some 0 else (firstGt i ((cumsum xs).map (x + ·))).map (· + 1))
              = some (j + 1)
          rw [if_neg hx, firstGt_map_add x i hx2, hj1]
          rfl
        · simp only [List.take_succ_cons, List.sum_cons]
          omega
        · simp only [List.take_succ_cons, List.sum_cons]
          omega

theorem take_bracket_unique (xs : List Nat) (i j j' : Nat)
    (h1 : (xs.take j).sum ≤ i) (h2 : i < (xs.take (j + 1)).sum)
    (h3 : (xs.take j').sum ≤ i) (h4 : i < (xs.take (j' + 1)).sum) : j = j' := by
  rcases lt_trichotomy j j' with h | h | h
  · have h5 := take_sum_le xs (show j + 1 ≤ j' by omega)
    omega
  · exact h
  · have h5 := take_sum_le xs (show j' + 1 ≤ j by omega)
    omega

theorem cumsum_getLast (xs : List Nat) (hne : xs ≠ []) :
    (cumsum xs).getLast? = some xs.sum := by
  induction xs with
  | nil => exact absurd rfl hne
  | cons x xs ih =>
      by_cases hxs : xs = []
      · subst hxs
        simp [cumsum]
      · show (x :: (cumsum xs).map (x + ·)).getLast? = some (x :: xs).sum
        have hne2 : (cumsum xs).map (x + ·) ≠ [] := by
          simp only [ne_eq, List.map_eq_nil_iff]
          intro hcon
          have h8 := cumsum_length xs
          rw [hcon] at h8
          exact hxs (List.length_eq_zero.mp h8.symm)
        obtain ⟨z, zs, hzs⟩ := List.exists_cons_of_ne_nil hne2
        rw [hzs, List.getLast?_cons_cons, ← hzs, List.getLast?_map, ih hxs]
        simp [List.sum_cons]

theorem boundary_getD (xs : List Nat) (j : Nat) (hj : j ≤ xs.length) :
    (0 :: cumsum xs).getD j 0 = (xs.take j).sum := by
  cases j with
  | zero => simp
  | succ k =>
      have hk : k < xs.length := by omega
      show (cumsum xs).getD k 0 = (xs.take (k + 1)).sum
      exact cumsum_getD xs k hk

theorem get_slices_bb_slice_len {masks : List NDArr} {patch_size : List Nat}
    {overlap : Nat} {filtered : Bool} {min_size : Nat}
    {out : List (List (List NSlice))}
    (h : get_slices_bb masks patch_size overlap filtered min_size = .ok out)
    (j : Nat) (hj : j < masks.length) (s : List NSlice) (hs : s ∈ out.getD j []) :
    s.length ≤ (masks.getD j default).shape.length := by
  obtain ⟨hlen, hall⟩ := get_slices_bb_ok h
  obtain ⟨dr, hdr, hslices⟩ := hall j hj
  obtain ⟨v, hv, rfl⟩ := hslices s hs
  obtain ⟨mins, maxs, hmins, hmaxs, hdrlen, _⟩ := bbDimRanges_ok hdr
  have hvl := (iterProduct_mem hv).1
  have hminlen : mins.length = (masks.getD j default).shape.length :=
    npMinAx_ok_length hmins (fun c hc => (allCoords_mem (mem_fgVoxels.mp hc).1).1)
  rw [List.length_map, List.length_zip, hvl, hdrlen]
  omega

theorem get_balanced_slices_slice_len {rperm : Nat → List Nat} {masks : List NDArr}
    {patch_size : List Nat} {rois : Option (List NDArr)} {min_size : Nat}
    {negRatio : ℚ} {out : List (List (List NSlice))}
    (h : get_balanced_slices rperm masks patch_size rois min_size negRatio = .ok out)
    (hroil : ∀ rs, rois = some rs → rs.length = masks.length)
    (j : Nat) (hj : j < masks.length) (s : List NSlice) (hs : s ∈ out.getD j []) :
    s.length ≤ (masks.getD j default).shape.length := by
  obtain ⟨m0, tl, minbb, maxbb, legals, hmasks, hmin, hmax, hlegs, hout⟩ :=
    get_balanced_slices_ok h
  have hsrclen : (bbSrcOf masks rois).length = masks.length := by
    cases rois with
    | none => rfl
    | some rs => exact hroil rs rfl
  have hminlen : minbb.length = masks.length := by
    rw [mapM_ok_length hmin, hsrclen]
  have hmaxlen : maxbb.length = masks.length := by
    rw [mapM_ok_length hmax, hsrclen]
  have hleglen : legals.length = masks.length := by
    have h2 := mapM_ok_length hlegs
    rw [List.length_zip, hminlen, hmaxlen, min_self] at h2
    exact h2
  have hbcklen : (bckMasksOf masks rois).length = masks.length := by
    cases rois with
    | none => simp [bckMasksOf]
    | some rs => simp [bckMasksOf, List.length_zip, hroil rs rfl]
  subst hout
  rcases balancedAssemble_mem hleglen hbcklen hj hs with rfl | ⟨c, hc, rfl⟩
  · simp
  · have hclen : c.length = (masks.getD j default).shape.length := by
      rcases hc with hc | hc
      · have h3 := (allCoords_mem (mem_get_mask_voxels.mp hc).1).1
        simpa [npLogicalAnd] using h3
      · have h3 := (allCoords_mem (mem_get_mask_voxels.mp hc).1).1
        have hbsh : ((bckMasksOf masks rois).getD j default).shape =
            (masks.getD j default).shape := by
          cases rois with
          | none =>
              show ((masks.map npLogicalNot).getD j default).shape = _
              rw [getD_map_of_lt npLogicalNot masks j hj default default]
              rfl
          | some rs =>
              have hjz : j < ((masks.map npLogicalNot).zip rs).length := by
                rw [List.length_zip, List.length_map, hroil rs rfl]
                omega
              show ((((masks.map npLogicalNot).zip rs).map
                  (fun (p : NDArr × NDArr) => npLogicalAnd p.1 p.2)).getD j default).shape = _
              rw [getD_map_of_lt _ _ _ hjz (default, default) default]
              rw [getD_zip_of_lt _ _ _ hjz default default]
              show ((masks.map npLogicalNot).getD j default).shape = _
              rw [getD_map_of_lt npLogicalNot masks j hj default default]
              rfl
        simp only [npLogicalAnd] at h3
        rw [hbsh] at h3
        exact h3
    have hci : (coordInt c).length = c.length := by simp [coordInt]
    rw [List.length_map, List.length_zip]
    omega

theorem get_balanced_slices_length {rperm : Nat → List Nat} {masks : List NDArr}
    {patch_size : List Nat} {rois : Option (List NDArr)} {min_size : Nat}
    {negRatio : ℚ} {out : List (List (List NSlice))}
    (h : get_balanced_slices rperm masks patch_size rois min_size negRatio = .ok out)
    (hroil : ∀ rs, rois = some rs → rs.length = masks.length) :
    out.length = masks.length := by
  obtain ⟨m0, tl, minbb, maxbb, legals, hmasks, hmin, hmax, hlegs, hout⟩ :=
    get_balanced_slices_ok h
  have hsrclen : (bbSrcOf masks rois).length = masks.length := by
    cases rois with
    | none => rfl
    | some rs => exact hroil rs rfl
  have hminlen : minbb.length = masks.length := by
    rw [mapM_ok_length hmin, hsrclen]
  have hmaxlen : maxbb.length = masks.length := by
    rw [mapM_ok_length hmax, hsrclen]
  have hleglen : legals.length = masks.length := by
    have h2 := mapM_ok_length hlegs
    rw [List.length_zip, hminlen, hmaxlen, min_self] at h2
    exact h2
  have hbcklen : (bckMasksOf masks rois).length = masks.length := by
    cases rois with
    | none => simp [bckMasksOf]
    | some rs => simp [bckMasksOf, List.length_zip, hroil rs rfl]
  rw [hout]
  exact balancedAssemble_length hleglen hbcklen


theorem mkDataset_ok {rperm : Nat → List Nat} {cs : List NDArr}
    {labels masks : Option (List NDArr)} {balanced : Bool}
    {overlap min_size : Nat} {ps : PatchSpec} {negRatio : ℚ} {samplerFlag : Bool}
    {ds : GSCDataset}
    (hmk : mkDataset rperm cs labels masks balanced overlap min_size ps negRatio
      samplerFlag = .ok ds)
    (hwf : DSWellFormed cs labels masks) :
    ds.cases = cs ∧ ds.labels = labels ∧ ds.sampler = samplerFlag ∧
    ds.max_slice = cumsum (ds.patch_slices.map List.length) ∧
    ds.patch_slices.length = cs.length ∧ cs ≠ [] ∧
    ∀ j, j < cs.length → ∀ s ∈ ds.patch_slices.getD j [],
      s.length < (cs.getD j default).shape.length ∧
      ∀ ls, labels = some ls → s.length ≤ (ls.getD j default).shape.length := by
  obtain ⟨hwfL, hwfM, hwfN⟩ := hwf
  unfold mkDataset at hmk
  cases cs with
  | nil =>
      obtain ⟨sh, hsh0, _⟩ := bindOk hmk
      cases hsh0
  | cons c0 rest =>
      obtain ⟨shape0, hsh0, hmk2⟩ := bindOk hmk
      have hsh : shape0 = c0.shape := (Except.ok.inj hsh0).symm
      subst hsh
      cases balanced with
      | true =>
          cases masks with
          | some ms =>
              cases labels with
              | some ls =>
                  obtain ⟨slices, hsl, hpure⟩ := bindOk hmk2
                  have hds := Except.ok.inj hpure
                  subst hds
                  obtain ⟨hlsl, hlsd⟩ := hwfL ls rfl
                  obtain ⟨hmsl, hmsd⟩ := hwfM ms rfl
                  have hroil : ∀ rs, (some ms : Option (List NDArr)) = some rs →
                      rs.length = ls.length := by
                    intro rs hrs
                    injection hrs with hrs
                    subst hrs
                    omega
                  have hlen2 := get_balanced_slices_length hsl hroil
                  refine ⟨rfl, rfl, rfl, rfl,
                    by show slices.length = (c0 :: rest).length; rw [hlen2, hlsl],
                    by simp, ?_⟩
                  intro j hj s hs
                  have hjls : j < ls.length := by rw [hlsl]; exact hj
                  have h3 := get_balanced_slices_slice_len hsl hroil j hjls s hs
                  have h4 := hlsd j hj
                  refine ⟨by omega, ?_⟩
                  intro ls' hls'
                  injection hls' with hls'
                  subst hls'
                  exact h3
              | none =>
                  obtain ⟨slices, hsl, _⟩ := bindOk hmk2
                  cases hsl
          | none =>
              cases labels with
              | some ls =>
                  obtain ⟨slices, hsl, hpure⟩ := bindOk hmk2
                  have hds := Except.ok.inj hpure
                  subst hds
                  obtain ⟨hlsl, hlsd⟩ := hwfL ls rfl
                  have hroil : ∀ rs, (some ls : Option (List NDArr)) = some rs →
                      rs.length = ls.length := by
                    intro rs hrs
                    injection hrs with hrs
                    subst hrs
                    rfl
                  have hlen2 := get_balanced_slices_length hsl hroil
                  refine ⟨rfl, rfl, rfl, rfl,
                    by show slices.length = (c0 :: rest).length; rw [hlen2, hlsl],
                    by simp, ?_⟩
                  intro j hj s hs
                  have hjls : j < ls.length := by rw [hlsl]; exact hj
                  have h3 := get_balanced_slices_slice_len hsl hroil j hjls s hs
                  have h4 := hlsd j hj
                  refine ⟨by omega, ?_⟩
                  intro ls' hls'
                  injection hls' with hls'
                  subst hls'
                  exact h3
              | none =>
                  obtain ⟨slices, hsl, hpure⟩ := bindOk hmk2
                  have hds := Except.ok.inj hpure
                  subst hds
                  have hones := hwfN rfl rfl
                  obtain ⟨hlen2, _⟩ := get_slices_bb_ok hsl
                  refine ⟨rfl, rfl, rfl, rfl,
                    by show slices.length = (c0 :: rest).length; rw [hlen2]; simp,
                    by simp, ?_⟩
                  intro j hj s hs
                  have hjm : j < ((c0 :: rest).map dataSingle).length := by
                    simp only [List.length_map]
                    omega
                  have h3 := get_slices_bb_slice_len hsl j hjm s hs
                  rw [getD_map_of_lt dataSingle (c0 :: rest) j hj default default] at h3
                  have hc := hones ((c0 :: rest).getD j default)
                    (getD_mem_of_lt (c0 :: rest) j hj default)
                  have hlen1 : 0 < ((c0 :: rest).getD j default).shape.length := by
                    cases hshape : ((c0 :: rest).getD j default).shape with
                    | nil => rw [hshape] at hc; simp at hc
                    | cons a l => simp
                  have h5 : (dataSingle ((c0 :: rest).getD j default)).shape.length
                      = ((c0 :: rest).getD j default).shape.length - 1 := by
                    unfold dataSingle
                    rw [if_pos hc]
                    simp
                  rw [h5] at h3
                  refine ⟨by omega, ?_⟩
                  intro ls' hls'
                  cases hls'
      | false =>
          cases masks with
          | some ms =>
              obtain ⟨slices, hsl, hpure⟩ := bindOk hmk2
              have hds := Except.ok.inj hpure
              subst hds
              obtain ⟨hmsl, hmsd⟩ := hwfM ms rfl
              obtain ⟨hlen2, _⟩ := get_slices_bb_ok hsl
              refine ⟨rfl, rfl, rfl, rfl,
                by show slices.length = (c0 :: rest).length; rw [hlen2, hmsl],
                by simp, ?_⟩
              intro j hj s hs
              have hjm : j < ms.length := by rw [hmsl]; exact hj
              have h3 := get_slices_bb_slice_len hsl j hjm s hs
              obtain ⟨h4, h5⟩ := hmsd j hj
              refine ⟨by omega, ?_⟩
              intro ls' hls'
              have h6 := h5 ls' hls'
              omega
          | none =>
              cases labels with
              | some ls =>
                  obtain ⟨slices, hsl, hpure⟩ := bindOk hmk2
                  have hds := Except.ok.inj hpure
                  subst hds
                  obtain ⟨hlsl, hlsd⟩ := hwfL ls rfl
                  obtain ⟨hlen2, _⟩ := get_slices_bb_ok hsl
                  refine ⟨rfl, rfl, rfl, rfl,
                    by show slices.length = (c0 :: rest).length; rw [hlen2, hlsl],
                    by simp, ?_⟩
                  intro j hj s hs
                  have hjls : j < ls.length := by rw [hlsl]; exact hj
                  have h3 := get_slices_bb_slice_len hsl j hjls s hs
                  have h4 := hlsd j hj
                  refine ⟨by omega, ?_⟩
                  intro ls' hls'
                  injection hls' with hls'
                  subst hls'
                  exact h3
              | none =>
                  obtain ⟨slices, hsl, hpure⟩ := bindOk hmk2
                  have hds := Except.ok.inj hpure
                  subst hds
                  have hones := hwfN rfl rfl
                  obtain ⟨hlen2, _⟩ := get_slices_bb_ok hsl
                  refine ⟨rfl, rfl, rfl, rfl,
                    by show slices.length = (c0 :: rest).length; rw [hlen2]; simp,
                    by simp, ?_⟩
                  intro j hj s hs
                  have hjm : j < ((c0 :: rest).map dataSingle).length := by
                    simp only [List.length_map]
                    omega
                  have h3 := get_slices_bb_slice_len hsl j hjm s hs
                  rw [getD_map_of_lt dataSingle (c0 :: rest) j hj default default] at h3
                  have hc := hones ((c0 :: rest).getD j default)
                    (getD_mem_of_lt (c0 :: rest) j hj default)
                  have hlen1 : 0 < ((c0 :: rest).getD j default).shape.length := by
                    cases hshape : ((c0 :: rest).getD j default).shape with
                    | nil => rw [hshape] at hc; simp at hc
                    | cons a l => simp
                  have h5 : (dataSingle ((c0 :: rest).getD j default)).shape.length
                      = ((c0 :: rest).getD j default).shape.length - 1 := by
                    unfold dataSingle
                    rw [if_pos hc]
                    simp
                  rw [h5] at h3
                  refine ⟨by omega, ?_⟩
                  intro ls' hls'
                  cases hls'

theorem pureOk {ε α : Type} (a : α) : (pure a : Except ε α) = Except.ok a := rfl

theorem get?_eq_some_getD {α : Type} (l : List α) (j : Nat) (h : j < l.length) (d : α) :
    l.get? j = some (l.getD j d) := by
  rw [List.get?_eq_getElem?, List.getElem?_eq_getElem h, List.getD_eq_getElem l d h]

theorem getItem_ok {ds : GSCDataset}
    (hms : ds.max_slice = cumsum (ds.patch_slices.map List.length))
    (hpl : ds.patch_slices.length = ds.cases.length)
    (hlabl : ∀ ls, ds.labels = some ls → ls.length = ds.cases.length)
    (hprops : ∀ j, j < ds.cases.length → ∀ s ∈ ds.patch_slices.getD j [],
      s.length < (ds.cases.getD j default).shape.length ∧
      ∀ ls, ds.labels = some ls → s.length ≤ (ls.getD j default).shape.length)
    (i : Nat) (hi : i < (ds.patch_slices.map List.length).sum) :
    ∃ j, firstGt i ds.max_slice = some j ∧ j < ds.cases.length ∧
      ((ds.patch_slices.map List.length).take j).sum ≤ i ∧
      i < ((ds.patch_slices.map List.length).take (j + 1)).sum ∧
      (∃ out, getItem ds i = .ok out) ∧
      ∀ ls, ds.labels = some ls → ∃ inputs target,
        (getItem ds i = .ok (.labeled inputs target) ∨
         getItem ds i = .ok (.labeledIdx inputs target i)) ∧
        target.shape.headD 0 = 1 := by
  obtain ⟨j, hfg0, hjlen, hbr1, hbr2⟩ :=
    firstGt_cumsum (ds.patch_slices.map List.length) i hi
  have hfg : firstGt i ds.max_slice = some j := by rw [hms]; exact hfg0
  have hjps : j < ds.patch_slices.length := by simpa using hjlen
  have hjcs : j < ds.cases.length := by omega
  have hget : ds.cases.get? j = some (ds.cases.getD j default) :=
    get?_eq_some_getD _ _ hjcs _
  have hps : ds.patch_slices.get? j = some (ds.patch_slices.getD j []) :=
    get?_eq_some_getD _ _ hjps _
  have hbound : (0 :: ds.max_slice).getD j 0 =
      ((ds.patch_slices.map List.length).take j).sum := by
    rw [hms]
    exact boundary_getD _ j (le_of_lt hjlen)
  have hcnt : (ds.patch_slices.map List.length).getD j 0 =
      (ds.patch_slices.getD j []).length := by
    rw [getD_map_of_lt List.length ds.patch_slices j hjps []]
  have hsucc := take_succ_sum (ds.patch_slices.map List.length) j hjlen
  have hpi : i - ((ds.patch_slices.map List.length).take j).sum <
      (ds.patch_slices.getD j []).length := by omega
  set slc := (ds.patch_slices.getD j []).getD
    (i - ((ds.patch_slices.map List.length).take j).sum) [] with hslc
  have hsget : (ds.patch_slices.getD j []).get? (i - (0 :: ds.max_slice).getD j 0) =
      some slc := by
    rw [hbound]
    exact get?_eq_some_getD _ _ hpi _
  have hmem : slc ∈ ds.patch_slices.getD j [] := getD_mem_of_lt _ _ hpi []
  obtain ⟨hs1, hs2⟩ := hprops j hjcs slc hmem
  obtain ⟨inp, hinp⟩ : ∃ a, npIndex (ds.cases.getD j default) (none :: slc.map some)
      = .ok a := by
    unfold npIndex
    rw [if_neg (by
      simp only [List.length_cons, List.length_map]
      omega)]
    exact ⟨_, rfl⟩
  refine ⟨j, hfg, hjcs, hbr1, hbr2, ?_, ?_⟩
  · cases hdl : ds.labels with
    | none =>
        refine ⟨.unlabeled inp j slc, ?_⟩
        simp only [getItem, hfg, pureOk, okBind, hget, hps, hsget, hinp, hdl]
    | some ls =>
        have hjls : j < ls.length := by
          rw [hlabl ls hdl]
          exact hjcs
        have hlget : ls.get? j = some (ls.getD j default) :=
          get?_eq_some_getD _ _ hjls _
        obtain ⟨tgt0, htgt⟩ : ∃ a, npIndex (ls.getD j default) (slc.map some)
            = .ok a := by
          unfold npIndex
          rw [if_neg (by
            simp only [List.length_map]
            have h7 := hs2 ls hdl
            omega)]
          exact ⟨_, rfl⟩
        cases hsamp : ds.sampler with
        | true =>
            refine ⟨.labeledIdx inp (expandDims0 tgt0) i, ?_⟩
            simp only [getItem, hfg, pureOk, okBind, hget, hps, hsget, hinp, hdl,
              hlget, htgt, hsamp, if_true]
        | false =>
            refine ⟨.labeled inp (expandDims0 tgt0), ?_⟩
            simp only [getItem, hfg, pureOk, okBind, hget, hps, hsget, hinp, hdl,
              hlget, htgt, hsamp]
            rfl
  · intro ls hdl
    have hjls : j < ls.length := by
      rw [hlabl ls hdl]
      exact hjcs
    have hlget : ls.get? j = some (ls.getD j default) :=
      get?_eq_some_getD _ _ hjls _
    obtain ⟨tgt0, htgt⟩ : ∃ a, npIndex (ls.getD j default) (slc.map some)
        = .ok a := by
      unfold npIndex
      rw [if_neg (by
        simp only [List.length_map]
        have h7 := hs2 ls hdl
        omega)]
      exact ⟨_, rfl⟩
    refine ⟨inp, expandDims0 tgt0, ?_, rfl⟩
    cases hsamp : ds.sampler with
    | true =>
        right
        simp only [getItem, hfg, pureOk, okBind, hget, hps, hsget, hinp, hdl,
          hlget, htgt, hsamp, if_true]
    | false =>
        left
        simp only [getItem, hfg, pureOk, okBind, hget, hps, hsget, hinp, hdl,
          hlget, htgt, hsamp]
        rfl

/-- C2: refuted as stated.  For a single-channel case of shape (1, 4, 4) with
neither labels nor masks, `len(d) = 1` makes the surrogate ones-mask keep the
channel axis: the dataset builds with 4 patches (`__len__ = 4`), yet
`__getitem__(0)` raises IndexError — four indices (channel slice plus three
patch slices) into a 3-d array. -/
theorem C2_counterexample :
    (mkDataset idPerm [cexCaseOneChan] none none true 0 0 (.int 2) 1 false >>=
      fun ds => dsLen ds) = .ok 4 ∧
    (mkDataset idPerm [cexCaseOneChan] none none true 0 0 (.int 2) 1 false >>=
      fun ds => getItem ds 0) = .error "too many indices for array" := by
  constructor <;> rfl

/-- C2: amended adapter contract.  For a well-formed construction (labels and
masks one dimension below the channel-led cases, surrogate-mask cases with a
true channel axis), `__len__` is the last cumulative count = the total patch
count, and every index below it maps to exactly one (case, local patch) pair
via the first cumulative boundary strictly above it, `__getitem__` succeeds,
and a present target gains a leading channel dimension of size 1. -/
theorem C2_theorem {rperm : Nat → List Nat} {cs : List NDArr}
    {labels masks : Option (List NDArr)} {balanced : Bool}
    {overlap min_size : Nat} {ps : PatchSpec} {negRatio : ℚ} {samplerFlag : Bool}
    {ds : GSCDataset}
    (hmk : mkDataset rperm cs labels masks balanced overlap min_size ps negRatio
      samplerFlag = .ok ds)
    (hwf : DSWellFormed cs labels masks) :
    dsLen ds = .ok ((ds.patch_slices.map List.length).sum) ∧
    ∀ i, i < (ds.patch_slices.map List.length).sum →
      ∃ j, firstGt i ds.max_slice = some j ∧ j < cs.length ∧
        ((ds.patch_slices.map List.length).take j).sum ≤ i ∧
        i < ((ds.patch_slices.map List.length).take (j + 1)).sum ∧
        (∀ j', ((ds.patch_slices.map List.length).take j').sum ≤ i →
          i < ((ds.patch_slices.map List.length).take (j' + 1)).sum → j' = j) ∧
        (∃ out, getItem ds i = .ok out) ∧
        ∀ ls, labels = some ls → ∃ inputs target,
          (getItem ds i = .ok (.labeled inputs target) ∨
           getItem ds i = .ok (.labeledIdx inputs target i)) ∧
          target.shape.headD 0 = 1 := by
  obtain ⟨hcs, hlab, hsamp, hms, hpl, hne, hprops⟩ := mkDataset_ok hmk hwf
  have hcne : ds.patch_slices.map List.length ≠ [] := by
    simp only [ne_eq, List.map_eq_nil_iff]
    intro h
    rw [h] at hpl
    exact hne (List.length_eq_zero.mp hpl.symm)
  constructor
  · unfold dsLen
    rw [hms, cumsum_getLast _ hcne]
  · intro i hi
    have hpl2 : ds.patch_slices.length = ds.cases.length := by rw [hcs]; exact hpl
    have hlabl2 : ∀ ls, ds.labels = some ls → ls.length = ds.cases.length := by
      intro ls h
      rw [hlab] at h
      rw [hcs]
      exact (hwf.1 ls h).1
    have hprops2 : ∀ j, j < ds.cases.length → ∀ s ∈ ds.patch_slices.getD j [],
        s.length < (ds.cases.getD j default).shape.length ∧
        ∀ ls, ds.labels = some ls → s.length ≤ (ls.getD j default).shape.length := by
      intro j hj s hs
      rw [hcs] at hj
      obtain ⟨ha, hb⟩ := hprops j hj s hs
      refine ⟨by rw [hcs]; exact ha, ?_⟩
      intro ls h
      rw [hlab] at h
      exact hb ls h
    obtain ⟨j, h1, h2, h3, h4, h5, h6⟩ := getItem_ok hms hpl2 hlabl2 hprops2 i hi
    refine ⟨j, h1, by rw [← hcs]; exact h2, h3, h4, ?_, h5, ?_⟩
    · intro j' hj1 hj2
      exact take_bracket_unique _ i j' j hj1 hj2 h3 h4
    · intro ls h
      exact h6 ls (by rw [hlab]; exact h)

/-- C2 witness: the labelled two-channel case of shape (2, 6): one patch,
adapter length 1, and `__getitem__(0)` returns a target with leading channel
dimension 1. -/
theorem C2_witness :
    (mkDataset idPerm [witCase26] (some [witMaskMid]) none false 0 0 (.int 2) 1 false =
      .ok dsWit ∧ DSWellFormed [witCase26] (some [witMaskMid]) none) ∧
    (dsLen dsWit = .ok ((dsWit.patch_slices.map List.length).sum) ∧
      ∀ i, i < (dsWit.patch_slices.map List.length).sum →
        ∃ j, firstGt i dsWit.max_slice = some j ∧ j < [witCase26].length ∧
          ((dsWit.patch_slices.map List.length).take j).sum ≤ i ∧
          i < ((dsWit.patch_slices.map List.length).take (j + 1)).sum ∧
          (∀ j', ((dsWit.patch_slices.map List.length).take j').sum ≤ i →
            i < ((dsWit.patch_slices.map List.length).take (j' + 1)).sum → j' = j) ∧
          (∃ out, getItem dsWit i = .ok out) ∧
          ∀ ls, (some [witMaskMid] : Option (List NDArr)) = some ls →
            ∃ inputs target,
              (getItem dsWit i = .ok (.labeled inputs target) ∨
               getItem dsWit i = .ok (.labeledIdx inputs target i)) ∧
              target.shape.headD 0 = 1) :=
  ⟨⟨rfl, by
      refine ⟨?_, ?_, ?_⟩
      · intro ls h
        injection h with h
        subst h
        refine ⟨rfl, ?_⟩
        intro i hi
        have h0 : i = 0 := by simpa using hi
        subst h0
        decide
      · intro ms h
        exact Option.noConfusion h
      · intro h
        exact Option.noConfusion h⟩,
   C2_theorem (show mkDataset idPerm [witCase26] (some [witMaskMid]) none false 0 0
       (.int 2) 1 false = .ok dsWit from rfl) (by
      refine ⟨?_, ?_, ?_⟩
      · intro ls h
        injection h with h
        subst h
        refine ⟨rfl, ?_⟩
        intro i hi
        have h0 : i = 0 := by simpa using hi
        subst h0
        decide
      · intro ms h
        exact Option.noConfusion h
      · intro h
        exact Option.noConfusion h)⟩
